import Mathlib

/-!
Verification of the tynamo DynamoDB client layer.

This file gives a shallow embedding of the core logic of the repository
(the update-expression compiler `generateUpdateExpression`, the condition
parser `parseExpression`, the record merger `mergeRecords` built on
lodash `merge`, the error classifiers `isUpdateError` / `isCheckError`,
the error-recovery branches of `upsertRecordNested`, and the batch
chunking of `batchWriteRecord` / `batchGetRecord` / `batchDeleteRecord`)
and proves or refutes the frozen specification claims about them.

JavaScript values are modelled by the inductive type `Val` (strings,
numbers, booleans, `null`, `undefined`, arrays and plain objects);
JavaScript objects are insertion-ordered association lists, with
`obj[k] = v` modelled by `setKey` (update in place keeps the key's
position, a new key is appended, as in V8's property order).
-/

namespace Tynamo

/-- A JavaScript / DynamoDB native value: scalars, `null`, `undefined`,
arrays and plain objects (maps).  Numbers are modelled as `Int` — no
claim depends on fractional values. -/
inductive Val where
  | str (s : String)
  | num (n : Int)
  | bool (b : Bool)
  | null
  | undef
  | arr (elems : List Val)
  | map (fields : List (String × Val))
deriving Repr

/-- A record (top-level JavaScript object): an insertion-ordered
association list from attribute name to value. -/
abbrev Rec := List (String × Val)

/-- Property read `obj[k]`: the value of the first entry with key `k`. -/
def getKey (m : List (String × α)) (k : String) : Option α :=
  match m with
  | [] => none
  | (k', v') :: t => if k' = k then some v' else getKey t k

/-- Property write `obj[k] = v`: overwrite in place if the key exists
(keeping its position), otherwise append — JavaScript object semantics. -/
def setKey (m : List (String × α)) (k : String) (v : α) : List (String × α) :=
  match m with
  | [] => [(k, v)]
  | (k', v') :: t => if k' = k then (k, v) :: t else (k', v') :: setKey t k v

/-- `convertToUnderscore` (src helpers): replace every character outside
`[A-Za-z0-9_]` with `_`. -/
def convertToUnderscore (input : String) : String :=
  String.mk (input.data.map (fun c => if c.isAlpha || c.isDigit || c = '_' then c else '_'))

/-- `String.prototype.split('.')`: split into the (possibly empty)
chunks between the dots, structurally over the character list. -/
def splitDotChars : List Char → List (List Char)
  | [] => [[]]
  | c :: rest =>
    if c = '.' then [] :: splitDotChars rest
    else
      match splitDotChars rest with
      | [] => [[c]]
      | h :: t => (c :: h) :: t

/-- `key.split('.')` as the source uses it on dotted paths. -/
def splitDot (s : String) : List String := (splitDotChars s.data).map String.mk

/-- `Tynamo.isNestedRecord`: a value is a nested record iff it is truthy,
an object, not an array, and has at least one own key. In `Val` this is
exactly a `map` with a nonempty field list (`null`, `undefined`, arrays
and scalars all fail the test; an empty map has zero keys). -/
def isNestedRecord : Val → Bool
  | .map fields => !fields.isEmpty
  | _ => false

/-- The `tagify` closure of `generateUpdateExpression`:
`key.split('.').map(k => '#' + convertToUnderscore(k)).join('.')`. -/
def tagify (key : String) : String :=
  String.intercalate "." ((splitDot key).map (fun k => "#" ++ convertToUnderscore k))

/-- The `include` parameter of `generateUpdateExpression`:
`boolean | string[]`. -/
inductive IncludeArg where
  | bool (b : Bool)
  | arr (paths : List String)

/-- Context of one `generateUpdateExpression` call: the table's key
names and the policy arguments. `sk` is `string | undefined`. -/
structure GueCtx where
  pk : String
  sk : Option String
  include_ : IncludeArg
  exclude : List String
  insertOnly : List String

/-- Mutable state threaded through `traverseAttributes`:
`expressionAttributeNames`, `expressionAttributeValues`,
`updateExpressions`. -/
structure GueState where
  names : List (String × String)
  values : List (String × Val)
  exprs : List String
deriving Repr

/-- The skip condition at the top of the `traverseAttributes` loop body,
with JavaScript operator precedence made explicit:
`currentKey === this.pk || currentKey === this.sk || val === undefined ||
 exclude.includes(currentKey) ||
 (include === false || (Array.isArray(include) && !include.includes(currentKey)) && !recursive)`
— note `||` binds looser than `&&`, so the last parenthesised disjunct is
`(include === false) || ((isArray && not-included) && !recursive)`. -/
def skipsEntry (ctx : GueCtx) (currentKey : String) (val : Val) : Bool :=
  let recursive := isNestedRecord val
  currentKey == ctx.pk ||
  (match ctx.sk with | some s => currentKey == s | none => false) ||
  (match val with | .undef => true | _ => false) ||
  ctx.exclude.contains currentKey ||
  ((match ctx.include_ with | .bool b => !b | _ => false) ||
    ((match ctx.include_ with
      | .arr paths => !paths.contains currentKey
      | _ => false) && !recursive))

/-- Decimal rendering with explicit fuel (any fuel above the number is
exact; the wrapper supplies `n + 1`, which always suffices since
`n / 10 < n`). -/
def decimalStrAux : Nat → Nat → String
  | 0, _ => ""
  | fuel + 1, n =>
    if n < 10 then String.mk [Char.ofNat (48 + n)]
    else decimalStrAux fuel (n / 10) ++ String.mk [Char.ofNat (48 + n % 10)]

/-- Decimal rendering of a natural number, as JavaScript template
interpolation `${n}` renders it (most significant digit first, no sign,
no padding).  Defined here instead of through `Nat.repr` so that its
injectivity is provable; it computes the same digit string. -/
def decimalStr (n : Nat) : String := decimalStrAux (n + 1) n


/-- The numeric value of a decimal digit character. -/
def digitVal (c : Char) : Nat := c.toNat - 48

/-- The numeric value of a most-significant-first digit string. -/
def decVal (cs : List Char) : Nat := cs.foldl (fun a c => a * 10 + digitVal c) 0

/-- The `:valueN` placeholder for counter value `n`. -/
def valueKeyFor (n : Nat) : String := ":value" ++ decimalStr n

/-- The leaf branch of the `traverseAttributes` loop body: register the
value under a fresh `:valueN` key (`N` = current number of value keys
plus one), register every sanitized path segment in the names map, and
push the assignment text (wrapped in `if_not_exists` when the path is in
the `insertOnly` set). -/
def leafStep (ctx : GueCtx) (currentKey : String) (val : Val) (st : GueState) : GueState :=
  let placeholder := tagify currentKey
  let valueKey := ":value" ++ decimalStr (st.values.length + 1)
  let valuePlaceholder :=
    if ctx.insertOnly.contains currentKey then
      "if_not_exists(" ++ placeholder ++ ", " ++ valueKey ++ ")"
    else valueKey
  let names := (splitDot currentKey).foldl
    (fun ns k => setKey ns ("#" ++ convertToUnderscore k) k) st.names
  { names := names
    values := setKey st.values valueKey val
    exprs := st.exprs ++ [placeholder ++ " = " ++ valuePlaceholder] }

/-- `traverseAttributes`: loop over `Object.entries(attributes)`; build
`currentKey` from `parentKey`; skip per `skipsEntry`; recurse into nested
records; otherwise emit a leaf assignment via `leafStep`. -/
def traverseAttributes (ctx : GueCtx) :
    List (String × Val) → Option String → GueState → GueState
  | [], _, st => st
  | (key, val) :: rest, parentKey, st =>
    let currentKey := match parentKey with
      | some p => p ++ "." ++ key
      | none => key
    if skipsEntry ctx currentKey val then
      traverseAttributes ctx rest parentKey st
    else
      match val with
      | .map (f :: fs) =>
        traverseAttributes ctx rest parentKey
          (traverseAttributes ctx (f :: fs) (some currentKey) st)
      | v => traverseAttributes ctx rest parentKey (leafStep ctx currentKey v st)

/-- The compiler's result: `UpdateExpression`,
`ExpressionAttributeNames`, `ExpressionAttributeValues`.  Marshalling of
the value map to the wire format is the identity in this model. -/
structure CompiledExpression where
  UpdateExpression : String
  ExpressionAttributeNames : List (String × String)
  ExpressionAttributeValues : List (String × Val)
deriving Repr

/-- `Tynamo.generateUpdateExpression`: run the traversal from the record
root with empty state and join the assignments into a single
`SET`-clause.  Note there is no emptiness check: zero assignments yield
the literal string `"SET "`. -/
def generateUpdateExpression (ctx : GueCtx) (record : Rec) : CompiledExpression :=
  let st := traverseAttributes ctx record none ⟨[], [], []⟩
  { UpdateExpression := "SET " ++ String.intercalate ", " st.exprs
    ExpressionAttributeNames := st.names
    ExpressionAttributeValues := st.values }

/-! ## The lodash `merge` used by `mergeRecords`

`merge(object, source)` deep-merges `source` into `object`:
an `undefined` source value never overwrites an existing key (but is
written when the key is absent); two plain objects merge recursively;
two arrays merge element-wise by index, the longer destination tail
surviving; a plain-object source replaces a non-object destination;
merging a plain object into an array keeps the array object (lodash
grafts the source's keys onto the array as properties, which the list
marshaller then drops — such stray properties are not modelled); any
other source value overwrites the destination. -/

mutual

/-- lodash merge of one source value into one destination value
(destination first, source second). -/
def mergeVal : Val → Val → Val
  | dv, .undef => dv
  | .map d, .map s => .map (mergeMap d s)
  | .arr d, .map _ => .arr d
  | _, .map s => .map s
  | .arr d, .arr s => .arr (mergeArrEls d s)
  | _, .arr s => .arr s
  | _, sv => sv

/-- lodash merge over the entries of a source object: each source entry
merges into the matching destination key, new keys are appended in
source order. -/
def mergeMap : List (String × Val) → List (String × Val) → List (String × Val)
  | d, [] => d
  | d, (k, sv) :: rest =>
    mergeMap
      (match getKey d k with
       | some dv =>
         match sv with
         | .undef => d
         | _ => setKey d k (mergeVal dv sv)
       | none => d ++ [(k, sv)])
      rest

/-- lodash merge of two arrays: element-wise by index, extra destination
elements kept, extra source elements appended. -/
def mergeArrEls : List Val → List Val → List Val
  | d, [] => d
  | [], s => s
  | dv :: dt, sv :: st => mergeVal dv sv :: mergeArrEls dt st

end

/-- The effect of one `mergeMap` entry on an existing destination key:
an `undefined` source value is skipped, any other source value is merged
in. -/
def mergeValOrSkip (dv sv : Val) : Val :=
  match sv with
  | .undef => dv
  | _ => mergeVal dv sv

/-- `lodash.omit(record, keys)` restricted to top-level keys — every
call reaching it from the upsert path passes `[]`, so deep-path omission
never fires there. -/
def omitKeys (r : Rec) (ks : List String) : Rec :=
  r.filter (fun e => !ks.contains e.1)

/-- `Tynamo.mergeRecords(newRecord, oldRecord, true, exclude)` — the
`include === true` branch, the only one the nested update/upsert
recovery paths use: `merge(oldRecord, omit(newRecord, exclude))`.
`getRecord` returns `null` for a missing record and
`lodash.merge` coerces a nullish destination to a fresh empty object. -/
def mergeRecords (newRecord : Rec) (oldRecord : Option Rec) (exclude : List String) : Rec :=
  mergeMap (match oldRecord with | some o => o | none => []) (omitKeys newRecord exclude)

/-! ## The storage gateway model

The DynamoDB service itself is not part of the repository; the store is
modelled as an association list from identity (partition-key value plus
optional sort-key value) to record, with `PutItem` as unconditional full
replacement and `GetItem` as lookup, per the gateway contract the spec
describes. -/

/-- An identity: the partition-key value and the optional sort-key value. -/
structure Ident where
  pkVal : String
  skVal : Option String
deriving DecidableEq, Repr

/-- The table contents. -/
abbrev Store := List (Ident × Rec)

/-- `GetItem` by identity (`getRecord` returns `null` when absent,
modelled by `none`). -/
def getRecordS (store : Store) (id : Ident) : Option Rec :=
  match store with
  | [] => none
  | (id', r) :: t => if id' = id then some r else getRecordS t id

/-- `PutItem`: unconditional full replacement of the item at the
identity. -/
def putRecordS (store : Store) (id : Ident) (r : Rec) : Store :=
  match store with
  | [] => [(id, r)]
  | (id', r') :: t => if id' = id then (id, r) :: t else (id', r') :: putRecordS t id r

/-! ## Error classification and the upsert recovery protocol -/

/-- A failure signal from the storage engine, as re-thrown by `send`
wrapped in `DynamodbError` (which copies the original error's `name` and
`message` and keeps the original — including, for conditional-check
failures requested with `ReturnValuesOnConditionCheckFailure: ALL_OLD`,
the pre-image `Item`). -/
structure DbError where
  name : String
  message : String
  item : Option Rec
deriving Repr

/-- Substring containment, for the `String.prototype.includes` calls of
`isUpdateError`. -/
def containsSubstr (s pat : String) : Prop :=
  pat.data <:+: s.data

instance (s pat : String) : Decidable (containsSubstr s pat) :=
  inferInstanceAs (Decidable (pat.data <:+: s.data))

/-- Boolean form of `containsSubstr`. -/
def containsSubstrB (s pat : String) : Bool :=
  decide (containsSubstr s pat)

/-- `Tynamo.isUpdateError`: a `ValidationException` whose message names
an invalid update path or an invalid update expression. -/
def isUpdateError (e : DbError) : Bool :=
  e.name == "ValidationException" &&
    (containsSubstrB e.message "path provided in the update expression is invalid for update" ||
     containsSubstrB e.message "Invalid UpdateExpression")

/-- `Tynamo.isCheckError`: a `ConditionalCheckFailedException`. -/
def isCheckError (e : DbError) : Bool :=
  e.name == "ConditionalCheckFailedException"

/-- The `catch` block of `Tynamo.upsertRecordNested`, as a pure state
transition on the modelled store.  `hasCond` records whether the caller
supplied `options.conditionExpression`.  The result is
`.ok (none, store)` for the explicit no-op return of `undefined`,
`.ok (some r, store')` when a recovery write of `r` is issued, and
`.error e` when the original failure is re-thrown.  The source checks,
in order: conditional-check failure with a pre-image and a caller
condition (return `undefined`); conditional-check failure without a
pre-image (unconditional `putRecord` of the original record); schema
mismatch (`getRecord`, `mergeRecords`, `putRecord` of the merge);
otherwise re-throw. -/
def upsertHandleError (store : Store) (id : Ident) (record : Rec)
    (hasCond : Bool) (e : DbError) : Except DbError (Option Rec × Store) :=
  if isCheckError e && e.item.isSome && hasCond then
    .ok (none, store)
  else if isCheckError e && e.item.isNone then
    .ok (some record, putRecordS store id record)
  else if isUpdateError e then
    let originalRecord := getRecordS store id
    let mergedRecord := mergeRecords record originalRecord []
    .ok (some mergedRecord, putRecordS store id mergedRecord)
  else
    .error e

/-- `Tynamo.upsertRecordNested` given the outcome of the conditional
`UpdateItem` attempt (`attempt` is the gateway's answer: a successful
response together with the updated store, or a failure signal). -/
def upsertRecordNested (store : Store) (id : Ident) (record : Rec) (hasCond : Bool)
    (attempt : Except DbError (Rec × Store)) : Except DbError (Option Rec × Store) :=
  match attempt with
  | .ok (resp, store') => .ok (some resp, store')
  | .error e => upsertHandleError store id record hasCond e

/-! ## Dotted paths and tree positions -/

/-- Follow a (already split) dotted path inside a value: each segment
traverses a `map` field; any non-map position along the way makes the
lookup fail. -/
def lookupVal : Val → List String → Option Val
  | v, [] => some v
  | .map fs, s :: rest =>
    (match getKey fs s with
     | some v' => lookupVal v' rest
     | none => none)
  | _, _ :: _ => none

/-- Follow a dotted path inside a record. -/
def lookupPath (r : Rec) (path : List String) : Option Val :=
  lookupVal (.map r) path

/-- A scalar value: a leaf that is neither a map, an array, nor
`undefined` (lodash `merge` overwrites the destination with such a
source value unconditionally). -/
def isScalar : Val → Bool
  | .str _ => true
  | .num _ => true
  | .bool _ => true
  | .null => true
  | _ => false

/-- `undefined` test. -/
def isUndef : Val → Bool
  | .undef => true
  | _ => false

/-- Keys of an association list are pairwise distinct. -/
def keysNodupB (fields : List (String × Val)) : Bool :=
  decide (fields.map Prod.fst).Nodup

mutual

/-- A well-formed JavaScript value: every nested object has pairwise
distinct keys (true of every value built from an object literal or
deserialized from the wire). -/
def wfB : Val → Bool
  | .map fields => keysNodupB fields && wfFields fields
  | .arr es => wfElems es
  | _ => true

/-- Well-formedness of an object's fields. -/
def wfFields : List (String × Val) → Bool
  | [] => true
  | (_, v) :: t => wfB v && wfFields t

/-- Well-formedness of an array's elements. -/
def wfElems : List Val → Bool
  | [] => true
  | v :: t => wfB v && wfElems t

end

/-- The positions of a source value at which a lodash merge into any
destination leaves the destination's readings under the path intact:
every position of the source along the path is a map (or a skipped
`undefined`), and the path itself is not bound by the source. -/
def retentionSafe : Val → List String → Bool
  | _, [] => false
  | .undef, _ :: _ => true
  | .map fields, s :: rest =>
    (match getKey fields s with
     | some sv' => retentionSafe sv' rest
     | none => true)
  | _, _ :: _ => false

/-- No position strictly along the path holds an array in the
destination while the source continues deeper there: lodash merges a
plain-object source into an array destination by grafting keys onto the
array object instead of replacing it, so an array in the destination
blocks path creation. -/
def noArrObstruction : Val → Val → List String → Bool
  | _, _, [] => true
  | dv, sv, s :: rest =>
    (match dv with | .arr _ => false | _ => true) &&
    (match dv, sv with
     | .map d, .map f =>
       (match getKey d s, getKey f s with
        | some dv', some sv' => noArrObstruction dv' sv' rest
        | _, _ => true)
     | _, _ => true)

/-! ## Specification-side view of the compiler's traversal

`assignedEntries` mirrors the branching of `traverseAttributes` exactly
but records the `(dotted path, leaf value)` pairs the traversal assigns,
in traversal order, instead of threading the string-building state; the
correspondence between the two is proved below and shared by the
claim theorems. -/

/-- The `(path, value)` pairs assigned by `traverseAttributes`, in
order. -/
def assignedEntries (ctx : GueCtx) : List (String × Val) → Option String → List (String × Val)
  | [], _ => []
  | (key, val) :: rest, parentKey =>
    let currentKey := match parentKey with
      | some p => p ++ "." ++ key
      | none => key
    if skipsEntry ctx currentKey val then
      assignedEntries ctx rest parentKey
    else
      match val with
      | .map (f :: fs) =>
        assignedEntries ctx (f :: fs) (some currentKey) ++ assignedEntries ctx rest parentKey
      | v => (currentKey, v) :: assignedEntries ctx rest parentKey

/-- The text of the assignment emitted for path `p` with value counter
`n`. -/
def assignText (ctx : GueCtx) (p : String) (n : Nat) : String :=
  tagify p ++ " = " ++
    (if ctx.insertOnly.contains p then
      "if_not_exists(" ++ tagify p ++ ", " ++ (":value" ++ decimalStr n) ++ ")"
     else ":value" ++ decimalStr n)

/-- Number the assigned values `:value(n+1), :value(n+2), ...`. -/
def numberVals : Nat → List (String × Val) → List (String × Val)
  | _, [] => []
  | n, (_, v) :: t => (valueKeyFor (n + 1), v) :: numberVals (n + 1) t

/-- The assignment texts for the assigned paths, numbering values from
`n+1` on. -/
def assignTexts (ctx : GueCtx) : Nat → List (String × Val) → List String
  | _, [] => []
  | n, (p, _) :: t => assignText ctx p (n + 1) :: assignTexts ctx (n + 1) t

/-- Register every sanitized segment of the dotted path `p` in the
attribute-names map. -/
def registerSegs (ns : List (String × String)) (p : String) : List (String × String) :=
  (splitDot p).foldl (fun ns k => setKey ns ("#" ++ convertToUnderscore k) k) ns

/-- Register the segments of all assigned paths, in order. -/
def registerAll (ns : List (String × String)) (es : List (String × Val)) : List (String × String) :=
  es.foldl (fun ns e => registerSegs ns e.1) ns

/-! ## Batch chunking (`batchWriteRecord`, `batchDeleteRecord`,
`batchGetRecord`) -/

/-- The chunking loop
`for (let i = 0; i < records.length; i += size) chunks.push(records.slice(i, i + size))`
(for a positive `size`, the only way the source calls it: 25 for
batch writes and deletes, 100 for batch reads). -/
def chunked (size : Nat) : List α → List (List α)
  | [] => []
  | x :: xs => (x :: xs).take size :: chunked size (xs.drop (size - 1))
termination_by l => l.length
decreasing_by simp only [List.length_cons, List.length_drop]; omega

/-- `Promise.all`: the aggregate fails if any group fails, and succeeds
with every group's result (in request order, independent of completion
order) otherwise. -/
def promiseAll : List (Except ε α) → Except ε (List α)
  | [] => .ok []
  | .error e :: _ => .error e
  | .ok a :: t => (promiseAll t).map (a :: ·)

/-- `Tynamo.batchWriteRecord`: chunk into groups of 25, dispatch each
group to the gateway, await all. -/
def batchWriteRecord (records : List Rec) (sendChunk : List Rec → Except ε α) : Except ε (List α) :=
  promiseAll ((chunked 25 records).map sendChunk)

/-- `Tynamo.batchDeleteRecord`: chunk into groups of 25, dispatch each
group to the gateway, await all. -/
def batchDeleteRecord (records : List Rec) (sendChunk : List Rec → Except ε α) : Except ε (List α) :=
  promiseAll ((chunked 25 records).map sendChunk)

/-- `Tynamo.batchGetRecord` against the modelled store: empty input
short-circuits to `[]`; otherwise chunk the identities into groups of
100, read each group (a group's response holds the items present in the
store for its keys), and concatenate every group's items in request
order. -/
def batchGetRecord (store : Store) (ids : List Ident) : List Rec :=
  match ids with
  | [] => []
  | _ :: _ => ((chunked 100 ids).map (fun c => c.filterMap (getRecordS store))).flatten

/-! ## The modelled storage-engine update semantics for `if_not_exists`

The DynamoDB engine is an external collaborator of the repository. -/

/-- Write a value at a (split) dotted path inside a value, creating
intermediate maps as needed. -/
def setValPath : Val → List String → Val → Val
  | _, [], v => v
  | .map fs, s :: rest, v =>
    .map (setKey fs s (setValPath
      (match getKey fs s with | some c => c | none => .map []) rest v))
  | _, s :: rest, v => .map [(s, setValPath (.map []) rest v)]

/-- Write a value at a dotted path inside a record. -/
def setPath (r : Rec) (p : List String) (v : Val) : Rec :=
  match setValPath (.map r) p v with
  | .map fs => fs
  | _ => r

/-- Modelled from the spec: the storage engine's application of a single
`SET path = if_not_exists(path, :v)` assignment — "preserve existing
value if already present; otherwise initialize it".  The engine itself
is outside the repository (an external Storage Gateway collaborator). -/
def applyIfNotExistsSet (current : Rec) (path : List String) (v : Val) : Rec :=
  if (lookupPath current path).isSome then current else setPath current path v

/-! ## The condition parser `Tynamo.parseExpression`

The source extracts attribute names and value tokens with three global
regexes run over the whole expression in order:
`name (=|>|<|>=|<=|<>) :value`, `size ( name ) OP :value`, and
`(begins_with|attribute_exists|attribute_not_exists|attribute_type|contains) ( name [, :value] )`,
where `name` is `#\w+(\.#\w+)*`.  The scanners below implement these
three patterns character-by-character with JavaScript `matchAll`
semantics (leftmost, non-overlapping, resuming after each match); the
regex's ordered alternation over operators resolves, after
backtracking, to longest-operator-first, which is what `pOp` does.
`\w` is `[A-Za-z0-9_]`; `\s` is modelled by the ASCII whitespace
characters. -/

/-- `\w` of JavaScript regexes. -/
def isWordChar (c : Char) : Bool := c.isAlpha || c.isDigit || c = '_'

/-- `\s` of JavaScript regexes (ASCII part). -/
def isSpaceChar (c : Char) : Bool := c = ' ' || c = '\t' || c = '\n' || c = '\r'

/-- `\s*`. -/
def skipWs (cs : List Char) : List Char := cs.dropWhile isSpaceChar

/-- `\w+`: one or more word characters, returning them as a string. -/
def takeWord1 (cs : List Char) : Option (String × List Char) :=
  match cs.takeWhile isWordChar with
  | [] => none
  | w => some (String.mk w, cs.dropWhile isWordChar)

/-- A literal character. -/
def eatChar (c : Char) : List Char → Option (List Char)
  | c' :: rest => if c' = c then some rest else none
  | [] => none

/-- A literal string. -/
def eatLit : List Char → List Char → Option (List Char)
  | [], cs => some cs
  | l :: ls, c :: cs => if c = l then eatLit ls cs else none
  | _ :: _, [] => none

/-- `#\w+`. -/
def pNameSeg (cs : List Char) : Option (String × List Char) := do
  let rest ← eatChar '#' cs
  takeWord1 rest

/-- `(\.#\w+)*`, greedily. -/
def pNameChainRest : Nat → List Char → List String × List Char
  | 0, cs => ([], cs)
  | fuel + 1, cs =>
    match cs with
    | '.' :: rest =>
      (match pNameSeg rest with
       | some (w, rest') =>
         let (ws, rest'') := pNameChainRest fuel rest'
         (w :: ws, rest'')
       | none => ([], cs))
    | _ => ([], cs)

/-- `#\w+(\.#\w+)*`: the attribute-name chain, decomposed into its
word segments (the source re-extracts the segments of the matched chain
with `/\w+/g`). -/
def pNameChain (cs : List Char) : Option (List String × List Char) :=
  match pNameSeg cs with
  | some (w, rest) =>
    let (ws, rest') := pNameChainRest rest.length rest
    some (w :: ws, rest')
  | none => none

/-- `(=|>|<|>=|<=|<>)` with the regex's backtracking resolved:
two-character operators are recognized before their one-character
prefixes. -/
def pOp : List Char → Option (List Char)
  | '<' :: '>' :: rest => some rest
  | '>' :: '=' :: rest => some rest
  | '<' :: '=' :: rest => some rest
  | '=' :: rest => some rest
  | '>' :: rest => some rest
  | '<' :: rest => some rest
  | _ => none

/-- `:(\w+)`: a value token, capturing the word after the colon. -/
def pValueTok (cs : List Char) : Option (String × List Char) := do
  let rest ← eatChar ':' cs
  takeWord1 rest

/-- One match of a condition-expression regex: the attribute-name
segments and the optional value token. -/
structure ExprMatch where
  names : List String
  valueTok : Option String
deriving Repr, DecidableEq

/-- Regex 1: `name \s* OP \s* :value`. -/
def tryP1 (cs : List Char) : Option (ExprMatch × List Char) := do
  let (ns, r1) ← pNameChain cs
  let r2 ← pOp (skipWs r1)
  let (v, r3) ← pValueTok (skipWs r2)
  pure (⟨ns, some v⟩, r3)

/-- Regex 2: `size \s* ( \s* name \s* ) \s* OP \s* :value`. -/
def tryP2 (cs : List Char) : Option (ExprMatch × List Char) := do
  let r1 ← eatLit "size".data cs
  let r2 ← eatChar '(' (skipWs r1)
  let (ns, r3) ← pNameChain (skipWs r2)
  let r4 ← eatChar ')' (skipWs r3)
  let r5 ← pOp (skipWs r4)
  let (v, r6) ← pValueTok (skipWs r5)
  pure (⟨ns, some v⟩, r6)

/-- The function names of regex 3, in the regex's alternation order. -/
def condFnNames : List String :=
  ["begins_with", "attribute_exists", "attribute_not_exists", "attribute_type", "contains"]

/-- Try the literal alternatives in order. -/
def eatOneOf : List String → List Char → Option (List Char)
  | [], _ => none
  | l :: ls, cs =>
    match eatLit l.data cs with
    | some rest => some rest
    | none => eatOneOf ls cs

/-- Regex 3: `fname \s* ( \s* name \s* (, \s* :value \s*)? )`. -/
def tryP3 (cs : List Char) : Option (ExprMatch × List Char) := do
  let r1 ← eatOneOf condFnNames cs
  let r2 ← eatChar '(' (skipWs r1)
  let (ns, r3) ← pNameChain (skipWs r2)
  match skipWs r3 with
  | ',' :: r4 =>
    let (v, r5) ← pValueTok (skipWs r4)
    let r6 ← eatChar ')' (skipWs r5)
    pure (⟨ns, some v⟩, r6)
  | r4 => do
    let r5 ← eatChar ')' r4
    pure (⟨ns, none⟩, r5)

/-- `matchAll` over one pattern: scan left to right, recording each
match and resuming after it, advancing one character where no match
starts.  Every pattern consumes at least one character, so a fuel of the
input length suffices. -/
def scanMatches (tryM : List Char → Option (ExprMatch × List Char)) :
    Nat → List Char → List ExprMatch
  | 0, _ => []
  | _, [] => []
  | fuel + 1, c :: cs =>
    match tryM (c :: cs) with
    | some (m, rest) => m :: scanMatches tryM fuel rest
    | none => scanMatches tryM fuel cs

/-- All matches of the three regexes over the expression, in the order
the source processes them (all of regex 1's, then regex 2's, then
regex 3's). -/
def allMatches (expr : String) : List ExprMatch :=
  let cs := expr.data
  scanMatches tryP1 cs.length cs ++ scanMatches tryP2 cs.length cs ++
    scanMatches tryP3 cs.length cs

/-- `DynamodbError`, as `send` wraps the underlying error: the original
error's name and message. -/
structure DynamodbError where
  name : String
  message : String
deriving Repr, DecidableEq

/-- The message of the missing-value error thrown by `parseExpression`:
`\n":TOKEN" value not found in expression 👇\n"EXPR"\n`. -/
def missingMsg (tok expr : String) : String :=
  "\n\"" ++ (":" ++ tok) ++ "\" value not found in expression 👇\n\"" ++ expr ++ "\"\n"

/-- The result of `parseExpression`. -/
structure ParsedExpr where
  attributeNames : List (String × String)
  attributeValues : List (String × Val)
deriving Repr

/-- The match-processing loop of `parseExpression`: register every name
segment under its `#`-prefixed key; for a match with a value token, copy
the caller's value when supplied (an `AttributeValue` object is always
truthy), otherwise throw the missing-value error at once. -/
def processMatches (expr : String) (provided : Option (List (String × Val))) :
    List ExprMatch → ParsedExpr → Except DynamodbError ParsedExpr
  | [], acc => .ok acc
  | m :: rest, acc =>
    let acc1 : ParsedExpr :=
      { acc with attributeNames :=
          m.names.foldl (fun ns part => setKey ns ("#" ++ part) part) acc.attributeNames }
    match m.valueTok with
    | none => processMatches expr provided rest acc1
    | some tok =>
      match provided.bind (fun vs => getKey vs (":" ++ tok)) with
      | some v =>
        processMatches expr provided rest
          { acc1 with attributeValues := setKey acc1.attributeValues (":" ++ tok) v }
      | none => .error ⟨"Error", missingMsg tok expr⟩

/-- `Tynamo.parseExpression`: extract the referenced attribute names and
the referenced subset of the caller's value mapping, failing on a value
token the caller did not supply. -/
def parseExpression (expr : String) (provided : Option (List (String × Val))) :
    Except DynamodbError ParsedExpr :=
  processMatches expr provided (allMatches expr) ⟨[], []⟩

/-- A match references a value token missing from the caller-supplied
mapping. -/
def matchMissing (provided : Option (List (String × Val))) (m : ExprMatch) : Bool :=
  match m.valueTok with
  | some t => (provided.bind (fun vs => getKey vs (":" ++ t))).isNone
  | none => false

/-! ## Concrete examples used by the claim theorems -/

/-- The identity `pk="a", sk="1"`. -/
def exIdent : Ident := ⟨"a", some "1"⟩

/-- A schema-mismatch failure signal: a `ValidationException` whose
message names an invalid update path. -/
def exValidationError : DbError :=
  ⟨"ValidationException",
   "The document path provided in the update expression is invalid for update", none⟩

/-- A conditional-check failure carrying no pre-image. -/
def exCheckErrorNoItem : DbError :=
  ⟨"ConditionalCheckFailedException", "The conditional request failed", none⟩

/-- A conditional-check failure carrying the pre-image of the existing
record. -/
def exCheckErrorWithItem : DbError :=
  ⟨"ConditionalCheckFailedException", "The conditional request failed",
   some [("pk", .str "a"), ("sk", .str "1"), ("data", .map [("x", .num 1)])]⟩

/-- The policy of `upsertRecordNested` with no `insertOnly` option:
include everything, exclude nothing. -/
def exCtxAll : GueCtx := ⟨"pk", some "sk", .bool true, [], []⟩

/-- A store holding one record whose `d` attribute is the list `[1, 2]`. -/
def exStoreArr : Store :=
  [(⟨"a", some "1"⟩,
    [("pk", Val.str "a"), ("sk", Val.str "1"), ("d", Val.arr [Val.num 1, Val.num 2])])]

/-- An incoming record whose `d` attribute is the list `[9]`. -/
def exRecArr : Rec := [("pk", Val.str "a"), ("sk", Val.str "1"), ("d", Val.arr [Val.num 9])]

/-! # Lemmas -/

/-! ## Association lists -/

theorem getKey_setKey_self (m : List (String × α)) (k : String) (v : α) :
    getKey (setKey m k v) k = some v := by
  induction m with
  | nil => simp [getKey, setKey]
  | cons e t ih =>
    obtain ⟨k', v'⟩ := e
    by_cases h : k' = k <;> simp [getKey, setKey, h, ih]

theorem getKey_setKey_ne (m : List (String × α)) (k k' : String) (v : α) (h : k' ≠ k) :
    getKey (setKey m k v) k' = getKey m k' := by
  have h' : k ≠ k' := fun hh => h hh.symm
  induction m with
  | nil => simp [getKey, setKey, h']
  | cons e t ih =>
    obtain ⟨k'', v''⟩ := e
    by_cases h2 : k'' = k
    · subst h2
      simp [getKey, setKey, h']
    · by_cases h3 : k'' = k'
      · subst h3
        simp [getKey, setKey, h, h2]
      · simp [getKey, setKey, h2, h3, ih]

theorem getKey_eq_none_iff (m : List (String × α)) (k : String) :
    getKey m k = none ↔ k ∉ m.map Prod.fst := by
  induction m with
  | nil => simp [getKey]
  | cons e t ih =>
    obtain ⟨k', v'⟩ := e
    by_cases h : k' = k
    · subst h
      simp [getKey]
    · have h' : k ≠ k' := fun hh => h hh.symm
      simp [getKey, h, h', ih]

theorem setKey_of_getKey_none (m : List (String × α)) (k : String) (v : α)
    (h : getKey m k = none) : setKey m k v = m ++ [(k, v)] := by
  induction m with
  | nil => simp [setKey]
  | cons e t ih =>
    obtain ⟨k', v'⟩ := e
    by_cases h2 : k' = k
    · simp [getKey, h2] at h
    · simp [getKey, h2] at h
      simp [setKey, h2, ih h]

theorem getKey_append (m m' : List (String × α)) (k : String) :
    getKey (m ++ m') k =
      (match getKey m k with
       | some v => some v
       | none => getKey m' k) := by
  induction m with
  | nil => simp [getKey]
  | cons e t ih =>
    obtain ⟨k', v'⟩ := e
    by_cases h : k' = k <;> simp [getKey, h, ih]

theorem getKey_isSome_setKey (m : List (String × α)) (k k' : String) (v : α)
    (h : (getKey m k').isSome) : (getKey (setKey m k v) k').isSome := by
  by_cases h2 : k' = k
  · subst h2; simp [getKey_setKey_self]
  · rwa [getKey_setKey_ne _ _ _ _ h2]

/-! ## Decimal rendering -/

theorem decVal_snoc (a : List Char) (c : Char) :
    decVal (a ++ [c]) = decVal a * 10 + digitVal c := by
  simp [decVal, List.foldl_append]

theorem digitVal_ofNat (d : Nat) (h : d < 10) : digitVal (Char.ofNat (48 + d)) = d := by
  interval_cases d <;> decide

theorem decVal_decimalStrAux (fuel : Nat) : ∀ n, n < fuel →
    decVal (decimalStrAux fuel n).data = n := by
  induction fuel with
  | zero =>
    intro n h
    omega
  | succ f ih =>
    intro n hn
    rw [decimalStrAux]
    by_cases h : n < 10
    · simp only [h, if_pos]
      show decVal [Char.ofNat (48 + n)] = n
      simp [decVal, digitVal_ofNat n h]
    · simp only [h, if_neg, not_false_iff, String.data_append]
      have hlt : n / 10 < f := by
        have := Nat.div_lt_self (show 0 < n by omega) (show 1 < 10 by decide)
        omega
      rw [decVal_snoc, ih (n / 10) hlt, digitVal_ofNat (n % 10) (Nat.mod_lt _ (by decide))]
      omega

theorem decVal_decimalStr (n : Nat) : decVal (decimalStr n).data = n :=
  decVal_decimalStrAux (n + 1) n (Nat.lt_succ_self n)

theorem decimalStr_injective : Function.Injective decimalStr := by
  intro a b h
  have ha := decVal_decimalStr a
  have hb := decVal_decimalStr b
  rw [h, hb] at ha
  exact ha.symm

theorem valueKeyFor_injective : Function.Injective valueKeyFor := by
  intro a b h
  apply decimalStr_injective
  apply String.ext
  have hd : (valueKeyFor a).data = (valueKeyFor b).data := congrArg String.data h
  simp only [valueKeyFor, String.data_append] at hd
  exact List.append_cancel_left hd

/-! ## The store -/

theorem getRecordS_putRecordS_self (store : Store) (id : Ident) (r : Rec) :
    getRecordS (putRecordS store id r) id = some r := by
  induction store with
  | nil => simp [getRecordS, putRecordS]
  | cons e t ih =>
    obtain ⟨id', r'⟩ := e
    by_cases h : id' = id <;> simp [getRecordS, putRecordS, h, ih]

/-! ## lodash merge -/

theorem getKey_some_mem (m : List (String × α)) (k : String) (v : α)
    (h : getKey m k = some v) : (k, v) ∈ m := by
  induction m with
  | nil => simp [getKey] at h
  | cons e t ih =>
    obtain ⟨k', v'⟩ := e
    by_cases h2 : k' = k
    · subst h2
      simp [getKey] at h
      simp [h]
    · simp [getKey, h2] at h
      simp [ih h]

theorem mergeVal_undef (dv : Val) : mergeVal dv .undef = dv := by
  cases dv <;> rfl

theorem mergeVal_scalar (dv v : Val) (h : isScalar v = true) : mergeVal dv v = v := by
  cases v with
  | str s => cases dv <;> rfl
  | num n => cases dv <;> rfl
  | bool b => cases dv <;> rfl
  | null => cases dv <;> rfl
  | _ => simp [isScalar] at h

theorem wfB_map_nodup (fields : List (String × Val)) (h : wfB (.map fields) = true) :
    (fields.map Prod.fst).Nodup := by
  simp only [wfB, keysNodupB, Bool.and_eq_true, decide_eq_true_eq] at h
  exact h.1

theorem wfFields_getKey (fields : List (String × Val)) (k : String) (v : Val)
    (hwf : wfFields fields = true) (h : getKey fields k = some v) : wfB v = true := by
  induction fields with
  | nil => simp [getKey] at h
  | cons e t ih =>
    obtain ⟨k', v'⟩ := e
    simp only [wfFields, Bool.and_eq_true] at hwf
    by_cases h2 : k' = k
    · simp [getKey, h2] at h
      exact h ▸ hwf.1
    · simp [getKey, h2] at h
      exact ih hwf.2 h

theorem wfB_map_getKey (fields : List (String × Val)) (k : String) (v : Val)
    (hwf : wfB (.map fields) = true) (h : getKey fields k = some v) : wfB v = true := by
  simp only [wfB, Bool.and_eq_true] at hwf
  exact wfFields_getKey fields k v hwf.2 h

theorem getKey_mergeMap_of_none (src : List (String × Val)) (d : List (String × Val))
    (k : String) (h : getKey src k = none) :
    getKey (mergeMap d src) k = getKey d k := by
  induction src generalizing d with
  | nil => simp [mergeMap]
  | cons e rest ih =>
    obtain ⟨k', sv⟩ := e
    have hne : ¬ k' = k := by
      intro hh
      simp [getKey, hh] at h
    have hrest : getKey rest k = none := by simpa [getKey, hne] using h
    have hk : k ≠ k' := fun hh => hne hh.symm
    simp only [mergeMap]
    rw [ih _ hrest]
    cases hg : getKey d k' with
    | some dv =>
      cases sv <;> simp [getKey_setKey_ne _ _ _ _ hk]
    | none =>
      rw [getKey_append]
      cases hdk : getKey d k <;> simp [getKey, hne]

theorem getKey_mergeMap (src : List (String × Val)) (d : List (String × Val)) (k : String)
    (hnd : (src.map Prod.fst).Nodup) :
    getKey (mergeMap d src) k =
      (match getKey src k with
       | none => getKey d k
       | some sv =>
         (match getKey d k with
          | some dv => some (mergeValOrSkip dv sv)
          | none => some sv)) := by
  induction src generalizing d with
  | nil => simp [mergeMap, getKey]
  | cons e rest ih =>
    obtain ⟨k', sv⟩ := e
    simp only [List.map_cons, List.nodup_cons] at hnd
    obtain ⟨hknotin, hndrest⟩ := hnd
    by_cases h2 : k' = k
    · subst h2
      have hrestnone : getKey rest k' = none := by
        rw [getKey_eq_none_iff]
        exact hknotin
      simp only [mergeMap]
      rw [getKey_mergeMap_of_none rest _ k' hrestnone]
      simp only [getKey, if_pos rfl]
      cases hg : getKey d k' with
      | some dv =>
        cases sv <;>
          simp [mergeValOrSkip, hg, getKey_setKey_self]
      | none =>
        rw [getKey_append, hg]
        simp [getKey]
    · have hgk : getKey ((k', sv) :: rest) k = getKey rest k := by simp [getKey, h2]
      have hk : k ≠ k' := fun hh => h2 hh.symm
      simp only [mergeMap]
      rw [ih _ hndrest]
      have hstep : getKey (match getKey d k' with
          | some dv =>
            (match sv with
             | Val.undef => d
             | _ => setKey d k' (mergeVal dv sv))
          | none => d ++ [(k', sv)]) k = getKey d k := by
        cases hg : getKey d k' with
        | some dv =>
          cases sv <;> simp [getKey_setKey_ne _ _ _ _ hk]
        | none =>
          rw [getKey_append]
          cases hdk : getKey d k <;> simp [getKey, h2]
      rw [hstep, hgk]

theorem retentionSafe_lookup_none (p : List String) (v : Val)
    (h : retentionSafe v p = true) : lookupVal v p = none := by
  induction p generalizing v with
  | nil => simp [retentionSafe] at h
  | cons s rest ih =>
    cases v with
    | undef => simp [lookupVal]
    | map fields =>
      cases hg : getKey fields s with
      | none => simp [lookupVal, hg]
      | some sv' =>
        simp only [retentionSafe, hg] at h
        simp [lookupVal, hg, ih sv' h]
    | str _ => simp [retentionSafe] at h
    | num _ => simp [retentionSafe] at h
    | bool _ => simp [retentionSafe] at h
    | null => simp [retentionSafe] at h
    | arr _ => simp [retentionSafe] at h

theorem lookupVal_mergeVal_overwrite (p : List String) (dv sv v : Val)
    (hl : lookupVal sv p = some v) (hsc : isScalar v = true)
    (hwf : wfB sv = true) (hobs : noArrObstruction dv sv p = true) :
    lookupVal (mergeVal dv sv) p = some v := by
  induction p generalizing dv sv with
  | nil =>
    simp only [lookupVal, Option.some.injEq] at hl
    subst hl
    simp only [lookupVal]
    exact congrArg some (mergeVal_scalar _ _ hsc)
  | cons s rest ih =>
    cases sv with
    | map fields =>
      cases hg : getKey fields s with
      | none => simp [lookupVal, hg] at hl
      | some sv' =>
        simp only [lookupVal, hg] at hl
        have hsv'wf : wfB sv' = true := wfB_map_getKey fields s sv' hwf hg
        have hsv'ne : ¬ sv' = Val.undef := by
          intro hh
          subst hh
          cases rest with
          | nil =>
            simp only [lookupVal, Option.some.injEq] at hl
            subst hl
            simp [isScalar] at hsc
          | cons a b => simp [lookupVal] at hl
        cases dv with
        | map dfields =>
          have hnod : (fields.map Prod.fst).Nodup := wfB_map_nodup fields hwf
          have hmv : mergeVal (.map dfields) (.map fields) = .map (mergeMap dfields fields) := rfl
          rw [hmv]
          simp only [lookupVal]
          rw [getKey_mergeMap fields dfields s hnod, hg]
          cases hgd : getKey dfields s with
          | none => simpa using hl
          | some dv' =>
            have hobs' : noArrObstruction dv' sv' rest = true := by
              simp only [noArrObstruction, hgd, hg, Bool.and_eq_true] at hobs
              exact hobs.2
            have hmos : mergeValOrSkip dv' sv' = mergeVal dv' sv' := by
              cases sv' <;> first | rfl | simp at hsv'ne
            show lookupVal (mergeValOrSkip dv' sv') rest = some v
            rw [hmos]
            exact ih dv' sv' hl hsv'wf hobs'
        | arr d =>
          simp [noArrObstruction] at hobs
        | str s' => simpa [mergeVal, lookupVal, hg] using hl
        | num n' => simpa [mergeVal, lookupVal, hg] using hl
        | bool b' => simpa [mergeVal, lookupVal, hg] using hl
        | null => simpa [mergeVal, lookupVal, hg] using hl
        | undef => simpa [mergeVal, lookupVal, hg] using hl
    | str _ => simp [lookupVal] at hl
    | num _ => simp [lookupVal] at hl
    | bool _ => simp [lookupVal] at hl
    | null => simp [lookupVal] at hl
    | undef => simp [lookupVal] at hl
    | arr _ => simp [lookupVal] at hl

theorem lookupVal_mergeVal_retention (p : List String) (dv sv : Val)
    (hrs : retentionSafe sv p = true) (hwf : wfB sv = true) :
    lookupVal (mergeVal dv sv) p = lookupVal dv p := by
  induction p generalizing dv sv with
  | nil => simp [retentionSafe] at hrs
  | cons s rest ih =>
    cases sv with
    | undef => rw [mergeVal_undef]
    | map fields =>
      cases hg : getKey fields s with
      | none =>
        cases dv with
        | map d =>
          have hmv : mergeVal (.map d) (.map fields) = .map (mergeMap d fields) := rfl
          rw [hmv]
          simp only [lookupVal]
          rw [getKey_mergeMap_of_none fields d s hg]
        | arr d => simp [mergeVal, lookupVal]
        | str _ => simp [mergeVal, lookupVal, hg]
        | num _ => simp [mergeVal, lookupVal, hg]
        | bool _ => simp [mergeVal, lookupVal, hg]
        | null => simp [mergeVal, lookupVal, hg]
        | undef => simp [mergeVal, lookupVal, hg]
      | some sv' =>
        simp only [retentionSafe, hg] at hrs
        have hsv'wf : wfB sv' = true := wfB_map_getKey fields s sv' hwf hg
        have hnone : lookupVal sv' rest = none := retentionSafe_lookup_none rest sv' hrs
        cases dv with
        | map d =>
          have hnod : (fields.map Prod.fst).Nodup := wfB_map_nodup fields hwf
          have hmv : mergeVal (.map d) (.map fields) = .map (mergeMap d fields) := rfl
          rw [hmv]
          simp only [lookupVal]
          rw [getKey_mergeMap fields d s hnod, hg]
          cases hgd : getKey d s with
          | none => simp [hnone]
          | some dv' =>
            cases hu : sv' with
            | undef =>
              show lookupVal (mergeValOrSkip dv' .undef) rest = lookupVal dv' rest
              rfl
            | map f' =>
              rw [hu] at hrs hsv'wf
              show lookupVal (mergeValOrSkip dv' (.map f')) rest = lookupVal dv' rest
              show lookupVal (mergeVal dv' (.map f')) rest = lookupVal dv' rest
              exact ih dv' (.map f') hrs hsv'wf
            | str _ =>
              rw [hu] at hrs
              cases rest <;> simp [retentionSafe] at hrs
            | num _ =>
              rw [hu] at hrs
              cases rest <;> simp [retentionSafe] at hrs
            | bool _ =>
              rw [hu] at hrs
              cases rest <;> simp [retentionSafe] at hrs
            | null =>
              rw [hu] at hrs
              cases rest <;> simp [retentionSafe] at hrs
            | arr _ =>
              rw [hu] at hrs
              cases rest <;> simp [retentionSafe] at hrs
        | arr d => simp [mergeVal, lookupVal]
        | str _ => simp [mergeVal, lookupVal, hg, hnone]
        | num _ => simp [mergeVal, lookupVal, hg, hnone]
        | bool _ => simp [mergeVal, lookupVal, hg, hnone]
        | null => simp [mergeVal, lookupVal, hg, hnone]
        | undef => simp [mergeVal, lookupVal, hg, hnone]
    | str _ => simp [retentionSafe] at hrs
    | num _ => simp [retentionSafe] at hrs
    | bool _ => simp [retentionSafe] at hrs
    | null => simp [retentionSafe] at hrs
    | arr _ => simp [retentionSafe] at hrs

theorem mergeMap_disjoint (src d : List (String × Val))
    (hdis : ∀ k ∈ src.map Prod.fst, getKey d k = none)
    (hnd : (src.map Prod.fst).Nodup) :
    mergeMap d src = d ++ src := by
  induction src generalizing d with
  | nil => simp [mergeMap]
  | cons e rest ih =>
    obtain ⟨k, sv⟩ := e
    simp only [List.map_cons, List.nodup_cons] at hnd
    have hdk : getKey d k = none := hdis k (by simp)
    simp only [mergeMap, hdk]
    rw [ih (d ++ [(k, sv)])]
    · simp
    · intro k' hk'
      rw [getKey_append]
      have : getKey d k' = none := hdis k' (by simp [hk'])
      rw [this]
      have hne : ¬ k = k' := by
        intro hh
        exact hnd.1 (hh ▸ hk')
      simp [getKey, hne]
    · exact hnd.2

theorem mergeMap_nil_left (src : List (String × Val)) (hnd : (src.map Prod.fst).Nodup) :
    mergeMap [] src = src := by
  rw [mergeMap_disjoint src [] (fun k _ => rfl) hnd]
  simp

theorem omitKeys_nil (r : Rec) : omitKeys r [] = r := by
  simp [omitKeys]

/-! ## Correspondence between `traverseAttributes` and its
specification view -/

theorem numberVals_length (n : Nat) (l : List (String × Val)) :
    (numberVals n l).length = l.length := by
  induction l generalizing n with
  | nil => rfl
  | cons e t ih => simp [numberVals, ih]

theorem numberVals_append (n : Nat) (a b : List (String × Val)) :
    numberVals n (a ++ b) = numberVals n a ++ numberVals (n + a.length) b := by
  induction a generalizing n with
  | nil => simp [numberVals]
  | cons e t ih =>
    obtain ⟨k, v⟩ := e
    have hlen : n + ((k, v) :: t).length = n + 1 + t.length := by
      simp only [List.length_cons]
      omega
    rw [hlen]
    show (valueKeyFor (n + 1), v) :: numberVals (n + 1) (t ++ b) =
      ((valueKeyFor (n + 1), v) :: numberVals (n + 1) t) ++ numberVals (n + 1 + t.length) b
    rw [List.cons_append, ih (n + 1)]

theorem assignTexts_append (ctx : GueCtx) (n : Nat) (a b : List (String × Val)) :
    assignTexts ctx n (a ++ b) = assignTexts ctx n a ++ assignTexts ctx (n + a.length) b := by
  induction a generalizing n with
  | nil => simp [assignTexts]
  | cons e t ih =>
    obtain ⟨k, v⟩ := e
    have hlen : n + ((k, v) :: t).length = n + 1 + t.length := by
      simp only [List.length_cons]
      omega
    rw [hlen]
    show assignText ctx k (n + 1) :: assignTexts ctx (n + 1) (t ++ b) =
      (assignText ctx k (n + 1) :: assignTexts ctx (n + 1) t) ++ assignTexts ctx (n + 1 + t.length) b
    rw [List.cons_append, ih (n + 1)]

theorem registerAll_append (ns : List (String × String)) (a b : List (String × Val)) :
    registerAll ns (a ++ b) = registerAll (registerAll ns a) b := by
  simp [registerAll, List.foldl_append]

theorem keys_numberVals (l : List (String × Val)) (n : Nat) :
    (numberVals n l).map Prod.fst = (List.range l.length).map (fun i => valueKeyFor (n + i + 1)) := by
  induction l generalizing n with
  | nil => simp [numberVals]
  | cons e t ih =>
    obtain ⟨k, v⟩ := e
    simp only [numberVals, List.map_cons, List.length_cons, List.range_succ_eq_map,
      List.map_map]
    refine congrArg₂ List.cons ?_ ?_
    · exact congrArg valueKeyFor (by omega)
    · rw [ih (n + 1)]
      refine List.map_congr_left ?_
      intro a _
      exact congrArg valueKeyFor (by omega)

theorem valueKeyFor_not_mem_range (n : Nat) :
    valueKeyFor (n + 1) ∉ (List.range n).map (fun i => valueKeyFor (i + 1)) := by
  intro h
  simp only [List.mem_map, List.mem_range] at h
  obtain ⟨i, hi, he⟩ := h
  have := valueKeyFor_injective he
  omega

theorem canonical_keys_append (n k : Nat) :
    (List.range (n + k)).map (fun i => valueKeyFor (i + 1)) =
      (List.range n).map (fun i => valueKeyFor (i + 1)) ++
        (List.range k).map (fun i => valueKeyFor (n + i + 1)) := by
  rw [List.range_add, List.map_append, List.map_map]
  exact congrArg _ (List.map_congr_left fun a _ => rfl)

theorem isNestedRecord_false_of_not_map_cons (v : Val)
    (h : ∀ (f : String × Val) (fs : List (String × Val)), v = Val.map (f :: fs) → False) :
    isNestedRecord v = false := by
  cases v with
  | map fields =>
    cases fields with
    | nil => rfl
    | cons f fs => exact absurd rfl (h f fs)
  | _ => rfl

theorem assignedEntries_cons_skip (ctx : GueCtx) (key : String) (val : Val)
    (rest : List (String × Val)) (pk : Option String)
    (hskip : skipsEntry ctx (match pk with | some p => p ++ "." ++ key | none => key) val = true) :
    assignedEntries ctx ((key, val) :: rest) pk = assignedEntries ctx rest pk := by
  cases pk with
  | none =>
    rw [assignedEntries.eq_def]
    simp only []
    rw [if_pos hskip]
  | some p =>
    rw [assignedEntries.eq_def]
    simp only []
    rw [if_pos hskip]

theorem assignedEntries_cons_map (ctx : GueCtx) (key : String) (f : String × Val)
    (fs rest : List (String × Val)) (pk : Option String)
    (hskip : skipsEntry ctx (match pk with | some p => p ++ "." ++ key | none => key)
      (Val.map (f :: fs)) = false) :
    assignedEntries ctx ((key, Val.map (f :: fs)) :: rest) pk =
      assignedEntries ctx (f :: fs)
          (some (match pk with | some p => p ++ "." ++ key | none => key)) ++
        assignedEntries ctx rest pk := by
  cases pk with
  | none =>
    rw [assignedEntries.eq_def]
    simp only []
    rw [if_neg (by simp [hskip])]
  | some p =>
    rw [assignedEntries.eq_def]
    simp only []
    rw [if_neg (by simp [hskip])]

theorem assignedEntries_cons_leaf (ctx : GueCtx) (key : String) (v : Val)
    (rest : List (String × Val)) (pk : Option String)
    (hnm : isNestedRecord v = false)
    (hskip : skipsEntry ctx (match pk with | some p => p ++ "." ++ key | none => key) v = false) :
    assignedEntries ctx ((key, v) :: rest) pk =
      ((match pk with | some p => p ++ "." ++ key | none => key), v) ::
        assignedEntries ctx rest pk := by
  cases v with
  | map fields =>
    cases fields with
    | nil =>
      cases pk with
      | none =>
        rw [assignedEntries.eq_def]
        simp only []
        rw [if_neg (by simp [hskip])]
      | some p =>
        rw [assignedEntries.eq_def]
        simp only []
        rw [if_neg (by simp [hskip])]
    | cons f fs => simp [isNestedRecord] at hnm
  | _ =>
    cases pk with
    | none =>
      rw [assignedEntries.eq_def]
      simp only []
      rw [if_neg (by simp [hskip])]
    | some p =>
      rw [assignedEntries.eq_def]
      simp only []
      rw [if_neg (by simp [hskip])]

theorem traverseAttributes_cons_skip (ctx : GueCtx) (key : String) (val : Val)
    (rest : List (String × Val)) (pk : Option String) (st : GueState)
    (hskip : skipsEntry ctx (match pk with | some p => p ++ "." ++ key | none => key) val = true) :
    traverseAttributes ctx ((key, val) :: rest) pk st = traverseAttributes ctx rest pk st := by
  cases pk with
  | none =>
    rw [traverseAttributes.eq_def]
    simp only []
    rw [if_pos hskip]
  | some p =>
    rw [traverseAttributes.eq_def]
    simp only []
    rw [if_pos hskip]

theorem traverseAttributes_cons_map (ctx : GueCtx) (key : String) (f : String × Val)
    (fs rest : List (String × Val)) (pk : Option String) (st : GueState)
    (hskip : skipsEntry ctx (match pk with | some p => p ++ "." ++ key | none => key)
      (Val.map (f :: fs)) = false) :
    traverseAttributes ctx ((key, Val.map (f :: fs)) :: rest) pk st =
      traverseAttributes ctx rest pk
        (traverseAttributes ctx (f :: fs)
          (some (match pk with | some p => p ++ "." ++ key | none => key)) st) := by
  cases pk with
  | none =>
    rw [traverseAttributes.eq_def]
    simp only []
    rw [if_neg (by simp [hskip])]
  | some p =>
    rw [traverseAttributes.eq_def]
    simp only []
    rw [if_neg (by simp [hskip])]

theorem traverseAttributes_cons_leaf (ctx : GueCtx) (key : String) (v : Val)
    (rest : List (String × Val)) (pk : Option String) (st : GueState)
    (hnm : isNestedRecord v = false)
    (hskip : skipsEntry ctx (match pk with | some p => p ++ "." ++ key | none => key) v = false) :
    traverseAttributes ctx ((key, v) :: rest) pk st =
      traverseAttributes ctx rest pk
        (leafStep ctx (match pk with | some p => p ++ "." ++ key | none => key) v st) := by
  cases v with
  | map fields =>
    cases fields with
    | nil =>
      cases pk with
      | none =>
        rw [traverseAttributes.eq_def]
        simp only []
        rw [if_neg (by simp [hskip])]
      | some p =>
        rw [traverseAttributes.eq_def]
        simp only []
        rw [if_neg (by simp [hskip])]
    | cons f fs => simp [isNestedRecord] at hnm
  | _ =>
    cases pk with
    | none =>
      rw [traverseAttributes.eq_def]
      simp only []
      rw [if_neg (by simp [hskip])]
    | some p =>
      rw [traverseAttributes.eq_def]
      simp only []
      rw [if_neg (by simp [hskip])]

theorem assignedEntries_skip_none (ctx : GueCtx) (key : String) (val : Val)
    (rest : List (String × Val)) (hskip : skipsEntry ctx key val = true) :
    assignedEntries ctx ((key, val) :: rest) none = assignedEntries ctx rest none :=
  assignedEntries_cons_skip ctx key val rest none hskip

theorem assignedEntries_skip_some (ctx : GueCtx) (key p : String) (val : Val)
    (rest : List (String × Val)) (hskip : skipsEntry ctx (p ++ "." ++ key) val = true) :
    assignedEntries ctx ((key, val) :: rest) (some p) = assignedEntries ctx rest (some p) :=
  assignedEntries_cons_skip ctx key val rest (some p) hskip

theorem assignedEntries_map_none (ctx : GueCtx) (key : String) (f : String × Val)
    (fs rest : List (String × Val)) (hskip : skipsEntry ctx key (Val.map (f :: fs)) = false) :
    assignedEntries ctx ((key, Val.map (f :: fs)) :: rest) none =
      assignedEntries ctx (f :: fs) (some key) ++ assignedEntries ctx rest none :=
  assignedEntries_cons_map ctx key f fs rest none hskip

theorem assignedEntries_map_some (ctx : GueCtx) (key p : String) (f : String × Val)
    (fs rest : List (String × Val))
    (hskip : skipsEntry ctx (p ++ "." ++ key) (Val.map (f :: fs)) = false) :
    assignedEntries ctx ((key, Val.map (f :: fs)) :: rest) (some p) =
      assignedEntries ctx (f :: fs) (some (p ++ "." ++ key)) ++
        assignedEntries ctx rest (some p) :=
  assignedEntries_cons_map ctx key f fs rest (some p) hskip

theorem assignedEntries_leaf_none (ctx : GueCtx) (key : String) (v : Val)
    (rest : List (String × Val)) (hnm : isNestedRecord v = false)
    (hskip : skipsEntry ctx key v = false) :
    assignedEntries ctx ((key, v) :: rest) none = (key, v) :: assignedEntries ctx rest none :=
  assignedEntries_cons_leaf ctx key v rest none hnm hskip

theorem assignedEntries_leaf_some (ctx : GueCtx) (key p : String) (v : Val)
    (rest : List (String × Val)) (hnm : isNestedRecord v = false)
    (hskip : skipsEntry ctx (p ++ "." ++ key) v = false) :
    assignedEntries ctx ((key, v) :: rest) (some p) =
      (p ++ "." ++ key, v) :: assignedEntries ctx rest (some p) :=
  assignedEntries_cons_leaf ctx key v rest (some p) hnm hskip

theorem traverseAttributes_skip_none (ctx : GueCtx) (key : String) (val : Val)
    (rest : List (String × Val)) (st : GueState) (hskip : skipsEntry ctx key val = true) :
    traverseAttributes ctx ((key, val) :: rest) none st =
      traverseAttributes ctx rest none st :=
  traverseAttributes_cons_skip ctx key val rest none st hskip

theorem traverseAttributes_skip_some (ctx : GueCtx) (key p : String) (val : Val)
    (rest : List (String × Val)) (st : GueState)
    (hskip : skipsEntry ctx (p ++ "." ++ key) val = true) :
    traverseAttributes ctx ((key, val) :: rest) (some p) st =
      traverseAttributes ctx rest (some p) st :=
  traverseAttributes_cons_skip ctx key val rest (some p) st hskip

theorem traverseAttributes_map_none (ctx : GueCtx) (key : String) (f : String × Val)
    (fs rest : List (String × Val)) (st : GueState)
    (hskip : skipsEntry ctx key (Val.map (f :: fs)) = false) :
    traverseAttributes ctx ((key, Val.map (f :: fs)) :: rest) none st =
      traverseAttributes ctx rest none (traverseAttributes ctx (f :: fs) (some key) st) :=
  traverseAttributes_cons_map ctx key f fs rest none st hskip

theorem traverseAttributes_map_some (ctx : GueCtx) (key p : String) (f : String × Val)
    (fs rest : List (String × Val)) (st : GueState)
    (hskip : skipsEntry ctx (p ++ "." ++ key) (Val.map (f :: fs)) = false) :
    traverseAttributes ctx ((key, Val.map (f :: fs)) :: rest) (some p) st =
      traverseAttributes ctx rest (some p)
        (traverseAttributes ctx (f :: fs) (some (p ++ "." ++ key)) st) :=
  traverseAttributes_cons_map ctx key f fs rest (some p) st hskip

theorem traverseAttributes_leaf_none (ctx : GueCtx) (key : String) (v : Val)
    (rest : List (String × Val)) (st : GueState) (hnm : isNestedRecord v = false)
    (hskip : skipsEntry ctx key v = false) :
    traverseAttributes ctx ((key, v) :: rest) none st =
      traverseAttributes ctx rest none (leafStep ctx key v st) :=
  traverseAttributes_cons_leaf ctx key v rest none st hnm hskip

theorem traverseAttributes_leaf_some (ctx : GueCtx) (key p : String) (v : Val)
    (rest : List (String × Val)) (st : GueState) (hnm : isNestedRecord v = false)
    (hskip : skipsEntry ctx (p ++ "." ++ key) v = false) :
    traverseAttributes ctx ((key, v) :: rest) (some p) st =
      traverseAttributes ctx rest (some p) (leafStep ctx (p ++ "." ++ key) v st) :=
  traverseAttributes_cons_leaf ctx key v rest (some p) st hnm hskip

theorem leafStep_eq (ctx : GueCtx) (ck : String) (v : Val) (st : GueState)
    (hkeys : st.values.map Prod.fst =
      (List.range st.values.length).map (fun i => valueKeyFor (i + 1))) :
    leafStep ctx ck v st =
      { names := registerSegs st.names ck
        values := st.values ++ [(valueKeyFor (st.values.length + 1), v)]
        exprs := st.exprs ++ [assignText ctx ck (st.values.length + 1)] } := by
  have hfresh : getKey st.values (valueKeyFor (st.values.length + 1)) = none := by
    rw [getKey_eq_none_iff, hkeys]
    exact valueKeyFor_not_mem_range st.values.length
  simp only [leafStep]
  rw [show (":value" ++ decimalStr (st.values.length + 1)) =
    valueKeyFor (st.values.length + 1) from rfl]
  rw [setKey_of_getKey_none _ _ _ hfresh]
  rfl

theorem traverse_spec (ctx : GueCtx) (attrs : List (String × Val)) (parentKey : Option String)
    (st : GueState) :
    st.values.map Prod.fst = (List.range st.values.length).map (fun i => valueKeyFor (i + 1)) →
    traverseAttributes ctx attrs parentKey st =
      { names := registerAll st.names (assignedEntries ctx attrs parentKey)
        values := st.values ++
          numberVals st.values.length (assignedEntries ctx attrs parentKey)
        exprs := st.exprs ++
          assignTexts ctx st.values.length (assignedEntries ctx attrs parentKey) } := by
  induction attrs, parentKey, st using traverseAttributes.induct ctx with
  | case1 pk st =>
    intro hkeys
    simp [traverseAttributes, assignedEntries, registerAll, numberVals, assignTexts]
  | case2 key val rest pk st ck hskip ih =>
    intro hkeys
    cases pk with
    | none =>
      have hskip1 : skipsEntry ctx key val = true := hskip
      rw [traverseAttributes_skip_none ctx key val rest st hskip1,
        assignedEntries_skip_none ctx key val rest hskip1]
      exact ih hkeys
    | some p =>
      have hskip1 : skipsEntry ctx (p ++ "." ++ key) val = true := hskip
      rw [traverseAttributes_skip_some ctx key p val rest st hskip1,
        assignedEntries_skip_some ctx key p val rest hskip1]
      exact ih hkeys
  | case3 key rest pk st ck f fs hskip ih1 ih1a ih2 =>
    intro hkeys
    cases pk with
    | none =>
      have hskipf : skipsEntry ctx key (Val.map (f :: fs)) = false := by
        have h : ¬ skipsEntry ctx key (Val.map (f :: fs)) = true := hskip
        simpa using h
      have ihA : st.values.map Prod.fst =
          (List.range st.values.length).map (fun i => valueKeyFor (i + 1)) →
          traverseAttributes ctx (f :: fs) (some key) st =
            { names := registerAll st.names (assignedEntries ctx (f :: fs) (some key))
              values := st.values ++
                numberVals st.values.length (assignedEntries ctx (f :: fs) (some key))
              exprs := st.exprs ++
                assignTexts ctx st.values.length
                  (assignedEntries ctx (f :: fs) (some key)) } := ih1
      have ihB : (traverseAttributes ctx (f :: fs) (some key) st).values.map Prod.fst =
          (List.range (traverseAttributes ctx (f :: fs) (some key) st).values.length).map
            (fun i => valueKeyFor (i + 1)) →
          traverseAttributes ctx rest none
              (traverseAttributes ctx (f :: fs) (some key) st) =
            { names := registerAll
                (traverseAttributes ctx (f :: fs) (some key) st).names
                (assignedEntries ctx rest none)
              values := (traverseAttributes ctx (f :: fs) (some key) st).values ++
                numberVals
                  (traverseAttributes ctx (f :: fs) (some key) st).values.length
                  (assignedEntries ctx rest none)
              exprs := (traverseAttributes ctx (f :: fs) (some key) st).exprs ++
                assignTexts ctx
                  (traverseAttributes ctx (f :: fs) (some key) st).values.length
                  (assignedEntries ctx rest none) } := ih2
      rw [traverseAttributes_map_none ctx key f fs rest st hskipf,
        assignedEntries_map_none ctx key f fs rest hskipf]
      rw [ihA hkeys] at ihB ⊢
      dsimp only at ihB
      have hlen1 : (st.values ++ numberVals st.values.length
          (assignedEntries ctx (f :: fs) (some key))).length =
          st.values.length + (assignedEntries ctx (f :: fs) (some key)).length := by
        simp [numberVals_length]
      have hkeys1 : (st.values ++ numberVals st.values.length
          (assignedEntries ctx (f :: fs) (some key))).map Prod.fst =
          (List.range (st.values ++ numberVals st.values.length
            (assignedEntries ctx (f :: fs) (some key))).length).map
            (fun i => valueKeyFor (i + 1)) := by
        rw [hlen1, List.map_append, hkeys, keys_numberVals, canonical_keys_append]
      rw [ihB hkeys1]
      simp only [hlen1]
      rw [registerAll_append, numberVals_append, assignTexts_append]
      simp [List.append_assoc]
    | some p =>
      have hskipf : skipsEntry ctx (p ++ "." ++ key) (Val.map (f :: fs)) = false := by
        have h : ¬ skipsEntry ctx (p ++ "." ++ key) (Val.map (f :: fs)) = true := hskip
        simpa using h
      have ihA : st.values.map Prod.fst =
          (List.range st.values.length).map (fun i => valueKeyFor (i + 1)) →
          traverseAttributes ctx (f :: fs) (some (p ++ "." ++ key)) st =
            { names := registerAll st.names
                (assignedEntries ctx (f :: fs) (some (p ++ "." ++ key)))
              values := st.values ++
                numberVals st.values.length
                  (assignedEntries ctx (f :: fs) (some (p ++ "." ++ key)))
              exprs := st.exprs ++
                assignTexts ctx st.values.length
                  (assignedEntries ctx (f :: fs) (some (p ++ "." ++ key))) } := ih1
      have ihB : (traverseAttributes ctx (f :: fs) (some (p ++ "." ++ key)) st).values.map
            Prod.fst =
          (List.range (traverseAttributes ctx (f :: fs)
            (some (p ++ "." ++ key)) st).values.length).map
            (fun i => valueKeyFor (i + 1)) →
          traverseAttributes ctx rest (some p)
              (traverseAttributes ctx (f :: fs) (some (p ++ "." ++ key)) st) =
            { names := registerAll
                (traverseAttributes ctx (f :: fs) (some (p ++ "." ++ key)) st).names
                (assignedEntries ctx rest (some p))
              values := (traverseAttributes ctx (f :: fs)
                  (some (p ++ "." ++ key)) st).values ++
                numberVals
                  (traverseAttributes ctx (f :: fs)
                    (some (p ++ "." ++ key)) st).values.length
                  (assignedEntries ctx rest (some p))
              exprs := (traverseAttributes ctx (f :: fs)
                  (some (p ++ "." ++ key)) st).exprs ++
                assignTexts ctx
                  (traverseAttributes ctx (f :: fs)
                    (some (p ++ "." ++ key)) st).values.length
                  (assignedEntries ctx rest (some p)) } := ih2
      rw [traverseAttributes_map_some ctx key p f fs rest st hskipf,
        assignedEntries_map_some ctx key p f fs rest hskipf]
      rw [ihA hkeys] at ihB ⊢
      dsimp only at ihB
      have hlen1 : (st.values ++ numberVals st.values.length
          (assignedEntries ctx (f :: fs) (some (p ++ "." ++ key)))).length =
          st.values.length +
            (assignedEntries ctx (f :: fs) (some (p ++ "." ++ key))).length := by
        simp [numberVals_length]
      have hkeys1 : (st.values ++ numberVals st.values.length
          (assignedEntries ctx (f :: fs) (some (p ++ "." ++ key)))).map Prod.fst =
          (List.range (st.values ++ numberVals st.values.length
            (assignedEntries ctx (f :: fs) (some (p ++ "." ++ key)))).length).map
            (fun i => valueKeyFor (i + 1)) := by
        rw [hlen1, List.map_append, hkeys, keys_numberVals, canonical_keys_append]
      rw [ihB hkeys1]
      simp only [hlen1]
      rw [registerAll_append, numberVals_append, assignTexts_append]
      simp [List.append_assoc]
  | case4 key rest pk st ck v hnotmap hskip ih =>
    intro hkeys
    have hnm : isNestedRecord v = false := isNestedRecord_false_of_not_map_cons v hnotmap
    cases pk with
    | none =>
      have hskipf : skipsEntry ctx key v = false := by
        have h : ¬ skipsEntry ctx key v = true := hskip
        simpa using h
      have ihA : (leafStep ctx key v st).values.map Prod.fst =
          (List.range (leafStep ctx key v st).values.length).map
            (fun i => valueKeyFor (i + 1)) →
          traverseAttributes ctx rest none (leafStep ctx key v st) =
            { names := registerAll (leafStep ctx key v st).names
                (assignedEntries ctx rest none)
              values := (leafStep ctx key v st).values ++
                numberVals (leafStep ctx key v st).values.length
                  (assignedEntries ctx rest none)
              exprs := (leafStep ctx key v st).exprs ++
                assignTexts ctx (leafStep ctx key v st).values.length
                  (assignedEntries ctx rest none) } := ih
      rw [traverseAttributes_leaf_none ctx key v rest st hnm hskipf,
        assignedEntries_leaf_none ctx key v rest hnm hskipf]
      rw [leafStep_eq ctx key v st hkeys] at ihA ⊢
      dsimp only at ihA
      have hlen1 : (st.values ++ [(valueKeyFor (st.values.length + 1), v)]).length =
          st.values.length + 1 := by simp
      have hkeys1 : (st.values ++ [(valueKeyFor (st.values.length + 1), v)]).map Prod.fst =
          (List.range (st.values ++
            [(valueKeyFor (st.values.length + 1), v)]).length).map
            (fun i => valueKeyFor (i + 1)) := by
        rw [hlen1, List.map_append, hkeys, List.range_succ, List.map_append]
        simp
      rw [ihA hkeys1]
      simp only [hlen1]
      rw [show numberVals st.values.length ((key, v) :: assignedEntries ctx rest none) =
          (valueKeyFor (st.values.length + 1), v) ::
            numberVals (st.values.length + 1) (assignedEntries ctx rest none) from rfl]
      rw [show assignTexts ctx st.values.length ((key, v) :: assignedEntries ctx rest none) =
          assignText ctx key (st.values.length + 1) ::
            assignTexts ctx (st.values.length + 1) (assignedEntries ctx rest none) from rfl]
      rw [show registerAll st.names ((key, v) :: assignedEntries ctx rest none) =
          registerAll (registerSegs st.names key) (assignedEntries ctx rest none) from rfl]
      simp
    | some p =>
      have hskipf : skipsEntry ctx (p ++ "." ++ key) v = false := by
        have h : ¬ skipsEntry ctx (p ++ "." ++ key) v = true := hskip
        simpa using h
      have ihA : (leafStep ctx (p ++ "." ++ key) v st).values.map Prod.fst =
          (List.range (leafStep ctx (p ++ "." ++ key) v st).values.length).map
            (fun i => valueKeyFor (i + 1)) →
          traverseAttributes ctx rest (some p) (leafStep ctx (p ++ "." ++ key) v st) =
            { names := registerAll (leafStep ctx (p ++ "." ++ key) v st).names
                (assignedEntries ctx rest (some p))
              values := (leafStep ctx (p ++ "." ++ key) v st).values ++
                numberVals (leafStep ctx (p ++ "." ++ key) v st).values.length
                  (assignedEntries ctx rest (some p))
              exprs := (leafStep ctx (p ++ "." ++ key) v st).exprs ++
                assignTexts ctx (leafStep ctx (p ++ "." ++ key) v st).values.length
                  (assignedEntries ctx rest (some p)) } := ih
      rw [traverseAttributes_leaf_some ctx key p v rest st hnm hskipf,
        assignedEntries_leaf_some ctx key p v rest hnm hskipf]
      rw [leafStep_eq ctx (p ++ "." ++ key) v st hkeys] at ihA ⊢
      dsimp only at ihA
      have hlen1 : (st.values ++ [(valueKeyFor (st.values.length + 1), v)]).length =
          st.values.length + 1 := by simp
      have hkeys1 : (st.values ++ [(valueKeyFor (st.values.length + 1), v)]).map Prod.fst =
          (List.range (st.values ++
            [(valueKeyFor (st.values.length + 1), v)]).length).map
            (fun i => valueKeyFor (i + 1)) := by
        rw [hlen1, List.map_append, hkeys, List.range_succ, List.map_append]
        simp
      rw [ihA hkeys1]
      simp only [hlen1]
      rw [show numberVals st.values.length
            ((p ++ "." ++ key, v) :: assignedEntries ctx rest (some p)) =
          (valueKeyFor (st.values.length + 1), v) ::
            numberVals (st.values.length + 1) (assignedEntries ctx rest (some p)) from rfl]
      rw [show assignTexts ctx st.values.length
            ((p ++ "." ++ key, v) :: assignedEntries ctx rest (some p)) =
          assignText ctx (p ++ "." ++ key) (st.values.length + 1) ::
            assignTexts ctx (st.values.length + 1) (assignedEntries ctx rest (some p)) from rfl]
      rw [show registerAll st.names
            ((p ++ "." ++ key, v) :: assignedEntries ctx rest (some p)) =
          registerAll (registerSegs st.names (p ++ "." ++ key))
            (assignedEntries ctx rest (some p)) from rfl]
      simp

theorem generateUpdateExpression_eq (ctx : GueCtx) (record : Rec) :
    generateUpdateExpression ctx record =
      { UpdateExpression := "SET " ++
          String.intercalate ", " (assignTexts ctx 0 (assignedEntries ctx record none))
        ExpressionAttributeNames := registerAll [] (assignedEntries ctx record none)
        ExpressionAttributeValues := numberVals 0 (assignedEntries ctx record none) } := by
  unfold generateUpdateExpression
  rw [traverse_spec ctx record none ⟨[], [], []⟩ (by simp)]
  simp

theorem gue_values_keys (ctx : GueCtx) (record : Rec) :
    (generateUpdateExpression ctx record).ExpressionAttributeValues.map Prod.fst =
      (List.range (assignedEntries ctx record none).length).map
        (fun i => valueKeyFor (i + 1)) := by
  rw [generateUpdateExpression_eq]
  show (numberVals 0 (assignedEntries ctx record none)).map Prod.fst = _
  rw [keys_numberVals]
  exact List.map_congr_left fun a _ => congrArg valueKeyFor (by omega)

theorem foldl_setKey_preserves (l : List String) (ns : List (String × String)) (k : String)
    (h : (getKey ns k).isSome) :
    (getKey (l.foldl (fun ns k' => setKey ns ("#" ++ convertToUnderscore k') k') ns) k).isSome := by
  induction l generalizing ns with
  | nil => exact h
  | cons s t ih => exact ih _ (getKey_isSome_setKey ns _ k _ h)

theorem foldl_setKey_covers (l : List String) (ns : List (String × String)) (seg : String)
    (hmem : seg ∈ l) :
    (getKey (l.foldl (fun ns k' => setKey ns ("#" ++ convertToUnderscore k') k') ns)
      ("#" ++ convertToUnderscore seg)).isSome := by
  induction l generalizing ns with
  | nil => simp at hmem
  | cons s t ih =>
    rcases List.mem_cons.mp hmem with h | h
    · subst h
      exact foldl_setKey_preserves t _ _ (by rw [getKey_setKey_self]; rfl)
    · exact ih (setKey ns ("#" ++ convertToUnderscore s) s) h

theorem registerSegs_preserves (ns : List (String × String)) (p k : String)
    (h : (getKey ns k).isSome) : (getKey (registerSegs ns p) k).isSome :=
  foldl_setKey_preserves _ ns k h

theorem registerSegs_covers (ns : List (String × String)) (p seg : String)
    (hmem : seg ∈ splitDot p) :
    (getKey (registerSegs ns p) ("#" ++ convertToUnderscore seg)).isSome :=
  foldl_setKey_covers _ ns seg hmem

theorem registerAll_preserves (es : List (String × Val)) (ns : List (String × String))
    (k : String) (h : (getKey ns k).isSome) : (getKey (registerAll ns es) k).isSome := by
  induction es generalizing ns with
  | nil => exact h
  | cons e t ih => exact ih _ (registerSegs_preserves ns e.1 k h)

theorem registerAll_covers (es : List (String × Val)) (ns : List (String × String))
    (e : String × Val) (hmem : e ∈ es) (seg : String) (hseg : seg ∈ splitDot e.1) :
    (getKey (registerAll ns es) ("#" ++ convertToUnderscore seg)).isSome := by
  induction es generalizing ns with
  | nil => simp at hmem
  | cons e' t ih =>
    rcases List.mem_cons.mp hmem with h | h
    · subst h
      exact registerAll_preserves t _ _ (registerSegs_covers ns e.1 seg hseg)
    · exact ih (registerSegs ns e'.1) h

theorem assignTexts_length (ctx : GueCtx) (n : Nat) (l : List (String × Val)) :
    (assignTexts ctx n l).length = l.length := by
  induction l generalizing n with
  | nil => rfl
  | cons e t ih => simp [assignTexts, ih]

theorem assignTexts_get (ctx : GueCtx) (l : List (String × Val)) : ∀ (n i : Nat)
    (h : i < l.length) (h2 : i < (assignTexts ctx n l).length),
    (assignTexts ctx n l).get ⟨i, h2⟩ = assignText ctx (l.get ⟨i, h⟩).1 (n + i + 1) := by
  induction l with
  | nil =>
    intro n i h h2
    simp at h
  | cons e t ih =>
    intro n i h h2
    cases i with
    | zero =>
      show assignText ctx e.1 (n + 1) = assignText ctx e.1 (n + 0 + 1)
      exact congrArg _ (by omega)
    | succ j =>
      have hj : j < t.length := by simpa using h
      have hj2 : j < (assignTexts ctx (n + 1) t).length := by
        rw [assignTexts_length]
        exact hj
      have hstep : (assignTexts ctx n (e :: t)).get ⟨j + 1, h2⟩ =
          (assignTexts ctx (n + 1) t).get ⟨j, hj2⟩ := rfl
      have hstep2 : ((e :: t).get ⟨j + 1, h⟩) = t.get ⟨j, hj⟩ := rfl
      rw [hstep, ih (n + 1) j hj hj2, hstep2]
      exact congrArg _ (by omega)

/-! ## The upsert recovery branches -/

theorem isCheckError_false_of_updateError (e : DbError) (h : isUpdateError e = true) :
    isCheckError e = false := by
  simp only [isUpdateError, Bool.and_eq_true, beq_iff_eq] at h
  simp [isCheckError, h.1]

theorem upsertHandleError_schemaMismatch (store : Store) (id : Ident) (record : Rec)
    (hasCond : Bool) (e : DbError) (h : isUpdateError e = true) :
    upsertHandleError store id record hasCond e =
      .ok (some (mergeRecords record (getRecordS store id) []),
        putRecordS store id (mergeRecords record (getRecordS store id) [])) := by
  have hc := isCheckError_false_of_updateError e h
  simp [upsertHandleError, hc, h]

theorem mergeRecords_none_eq (r : Rec) (h : (r.map Prod.fst).Nodup) :
    mergeRecords r none [] = r := by
  show mergeMap [] (omitKeys r []) = r
  rw [omitKeys_nil, mergeMap_nil_left r h]

theorem mergeRecords_some_overwrite (r o : Rec) (p : List String) (v : Val)
    (hl : lookupPath r p = some v) (hsc : isScalar v = true) (hwf : wfB (.map r) = true)
    (hobs : noArrObstruction (.map o) (.map r) p = true) :
    lookupPath (mergeRecords r (some o) []) p = some v := by
  show lookupVal (.map (mergeMap o (omitKeys r []))) p = some v
  rw [omitKeys_nil]
  exact lookupVal_mergeVal_overwrite p (.map o) (.map r) v hl hsc hwf hobs

theorem mergeRecords_some_retention (r o : Rec) (p : List String)
    (hrs : retentionSafe (.map r) p = true) (hwf : wfB (.map r) = true) :
    lookupPath (mergeRecords r (some o) []) p = lookupPath o p := by
  show lookupVal (.map (mergeMap o (omitKeys r []))) p = lookupVal (.map o) p
  rw [omitKeys_nil]
  exact lookupVal_mergeVal_retention p (.map o) (.map r) hrs hwf

/-! ## Batch chunking -/

theorem chunked_flatten (size : Nat) (h : 0 < size) :
    ∀ l : List α, (chunked size l).flatten = l
  | [] => by rw [chunked]; rfl
  | x :: xs => by
    rw [chunked]
    simp only [List.flatten_cons]
    rw [chunked_flatten size h (xs.drop (size - 1))]
    obtain ⟨s, rfl⟩ : ∃ s, size = s + 1 := ⟨size - 1, by omega⟩
    simp only [List.take_succ_cons, Nat.add_sub_cancel, List.cons_append]
    rw [List.take_append_drop]
termination_by l => l.length
decreasing_by simp only [List.length_cons, List.length_drop]; omega

theorem chunked_sizes (size : Nat) :
    ∀ (l : List α) (c : List α), c ∈ chunked size l → c.length ≤ size
  | [], c => by simp [chunked]
  | x :: xs, c => by
    rw [chunked]
    intro hmem
    rcases List.mem_cons.mp hmem with h | h
    · subst h
      simpa using List.length_take_le size (x :: xs)
    · exact chunked_sizes size (xs.drop (size - 1)) c h
termination_by l => l.length
decreasing_by simp only [List.length_cons, List.length_drop]; omega

theorem chunked_count (size : Nat) (h : 0 < size) :
    ∀ l : List α, (chunked size l).length = (l.length + size - 1) / size
  | [] => by
    rw [chunked]
    simp only [List.length_nil, Nat.zero_add]
    exact (Nat.div_eq_of_lt (by omega)).symm
  | x :: xs => by
    rw [chunked]
    simp only [List.length_cons]
    rw [chunked_count size h (xs.drop (size - 1))]
    rw [List.length_drop]
    rcases Nat.lt_or_ge xs.length (size - 1) with hlt | hge
    · have hl : (xs.length - (size - 1) + size - 1) / size + 1 = 1 := by
        have h1 : xs.length - (size - 1) = 0 := by omega
        rw [h1, Nat.div_eq_of_lt (by omega)]
      have hr : (xs.length + 1 + size - 1) / size = 1 := by
        have h3 : xs.length + 1 + size - 1 = xs.length + size := by omega
        rw [h3, Nat.add_div_right _ h, Nat.div_eq_of_lt (by omega)]
      rw [hl, hr]
    · have hl : (xs.length - (size - 1) + size - 1) / size + 1 =
          xs.length / size + 1 := by
        have h1 : xs.length - (size - 1) + size - 1 = xs.length := by omega
        rw [h1]
      have hr : (xs.length + 1 + size - 1) / size = xs.length / size + 1 := by
        have h3 : xs.length + 1 + size - 1 = xs.length + size := by omega
        rw [h3, Nat.add_div_right _ h]
      rw [hl, hr]
termination_by l => l.length
decreasing_by simp only [List.length_cons, List.length_drop]; omega

theorem promiseAll_error_of_mem (rs : List (Except ε α)) (e : ε) (hmem : .error e ∈ rs) :
    ∃ e', promiseAll rs = .error e' := by
  induction rs with
  | nil => simp at hmem
  | cons r t ih =>
    cases r with
    | error e' => exact ⟨e', rfl⟩
    | ok a =>
      have h : Except.error e ∈ t := by
        rcases List.mem_cons.mp hmem with h | h
        · exact absurd h (by simp)
        · exact h
      obtain ⟨e', he'⟩ := ih h
      refine ⟨e', ?_⟩
      show (promiseAll t).map (a :: ·) = Except.error e'
      rw [he']
      rfl

theorem promiseAll_ok_of_all_ok (rs : List (Except ε α))
    (h : ∀ r ∈ rs, ∃ a, r = .ok a) : ∃ as, promiseAll rs = .ok as ∧ as.length = rs.length := by
  induction rs with
  | nil => exact ⟨[], rfl, rfl⟩
  | cons r t ih =>
    obtain ⟨a, rfl⟩ := h r (by simp)
    obtain ⟨as, has, hlen⟩ := ih (fun r hr => h r (by simp [hr]))
    refine ⟨a :: as, ?_, by simp [hlen]⟩
    show (promiseAll t).map (a :: ·) = Except.ok (a :: as)
    rw [has]
    rfl

theorem flatten_map_filterMap (chunks : List (List α)) (f : α → Option β) :
    (chunks.map (fun c => c.filterMap f)).flatten = chunks.flatten.filterMap f := by
  induction chunks with
  | nil => rfl
  | cons c t ih =>
    simp only [List.map_cons, List.flatten_cons, List.filterMap_append, ih]

theorem filterMap_length_of_isSome (l : List α) (f : α → Option β)
    (h : ∀ a ∈ l, (f a).isSome) : (l.filterMap f).length = l.length := by
  induction l with
  | nil => rfl
  | cons a t ih =>
    obtain ⟨b, hb⟩ := Option.isSome_iff_exists.mp (h a (by simp))
    rw [List.filterMap_cons_some hb]
    simp only [List.length_cons]
    rw [ih (fun a ha => h a (by simp [ha]))]

theorem batchGetRecord_all_present (store : Store) (ids : List Ident)
    (h : ∀ id ∈ ids, (getRecordS store id).isSome) :
    (batchGetRecord store ids).length = ids.length := by
  cases ids with
  | nil => rfl
  | cons i t =>
    show (((chunked 100 (i :: t)).map
      (fun c => c.filterMap (getRecordS store))).flatten).length = _
    rw [flatten_map_filterMap, chunked_flatten 100 (by decide)]
    exact filterMap_length_of_isSome _ _ h

/-! ## The condition parser -/

theorem processMatches_error (expr : String) (provided : Option (List (String × Val))) :
    ∀ (ms : List ExprMatch) (acc : ParsedExpr),
    (∃ m ∈ ms, matchMissing provided m = true) →
    ∃ t, (provided.bind (fun vs => getKey vs (":" ++ t))) = none ∧
      processMatches expr provided ms acc = .error ⟨"Error", missingMsg t expr⟩ := by
  intro ms
  induction ms with
  | nil =>
    intro acc hmem
    simp at hmem
  | cons m rest ih =>
    intro acc hmem
    cases hv : m.valueTok with
    | none =>
      have hmem' : ∃ m' ∈ rest, matchMissing provided m' = true := by
        obtain ⟨m', hm', hmiss⟩ := hmem
        rcases List.mem_cons.mp hm' with h | h
        · subst h
          simp [matchMissing, hv] at hmiss
        · exact ⟨m', h, hmiss⟩
      obtain ⟨t, ht, hproc⟩ := ih _ hmem'
      refine ⟨t, ht, ?_⟩
      simpa [processMatches, hv] using hproc
    | some tok =>
      cases hlook : provided.bind (fun vs => getKey vs (":" ++ tok)) with
      | none =>
        refine ⟨tok, hlook, ?_⟩
        simp [processMatches, hv, hlook]
      | some v =>
        have hmem' : ∃ m' ∈ rest, matchMissing provided m' = true := by
          obtain ⟨m', hm', hmiss⟩ := hmem
          rcases List.mem_cons.mp hm' with h | h
          · subst h
            simp [matchMissing, hv, hlook] at hmiss
          · exact ⟨m', h, hmiss⟩
        obtain ⟨t, ht, hproc⟩ := ih _ hmem'
        refine ⟨t, ht, ?_⟩
        simpa [processMatches, hv, hlook] using hproc

theorem parseExpression_missing (expr : String) (provided : Option (List (String × Val)))
    (h : ∃ m ∈ allMatches expr, matchMissing provided m = true) :
    ∃ t, (provided.bind (fun vs => getKey vs (":" ++ t))) = none ∧
      parseExpression expr provided = .error ⟨"Error", missingMsg t expr⟩ :=
  processMatches_error expr provided (allMatches expr) ⟨[], []⟩ h

theorem missingMsg_contains_token (t expr : String) :
    containsSubstr (missingMsg t expr) (":" ++ t) := by
  show (":" ++ t).data <:+: (missingMsg t expr).data
  refine ⟨"\n\"".data,
    ("\" value not found in expression 👇\n\"" ++ expr ++ "\"\n").data, ?_⟩
  simp [missingMsg, String.data_append]

theorem missingMsg_contains_expr (t expr : String) :
    containsSubstr (missingMsg t expr) expr := by
  show expr.data <:+: (missingMsg t expr).data
  refine ⟨("\n\"" ++ (":" ++ t) ++ "\" value not found in expression 👇\n\"").data,
    "\"\n".data, ?_⟩
  simp [missingMsg, String.data_append]

theorem skipsEntry_eval_leaf (pkn : String) (skn : Option String) (inc : IncludeArg)
    (E io : List String) (ck : String) (v : Val) (hpk : ck ≠ pkn) (hsk : skn ≠ some ck)
    (hE : ck ∉ E) (hu : isUndef v = false) (hnm : isNestedRecord v = false) :
    skipsEntry ⟨pkn, skn, inc, E, io⟩ ck v =
      ((match inc with | .bool b => !b | .arr _ => false) ||
       (match inc with | .arr S => !S.contains ck | .bool _ => false)) := by
  have hpk' : (ck == pkn) = false := by simp [hpk]
  have hE' : E.contains ck = false := by simp [hE]
  cases skn with
  | none =>
    cases v with
    | map fields =>
      cases fields with
      | nil => cases inc <;> simp [skipsEntry, isNestedRecord, hpk', hE', hE]
      | cons f fs => simp [isNestedRecord] at hnm
    | undef => simp [isUndef] at hu
    | _ => cases inc <;> simp [skipsEntry, isNestedRecord, hpk', hE', hE]
  | some s =>
    have h2 : (ck == s) = false := by
      have h3 : ck ≠ s := fun hh => hsk (by rw [hh])
      simp [h3]
    cases v with
    | map fields =>
      cases fields with
      | nil => cases inc <;> simp [skipsEntry, isNestedRecord, hpk', hE', hE, h2]
      | cons f fs => simp [isNestedRecord] at hnm
    | undef => simp [isUndef] at hu
    | _ => cases inc <;> simp [skipsEntry, isNestedRecord, hpk', hE', hE, h2]

theorem skipsEntry_eval_map (pkn : String) (skn : Option String) (inc : IncludeArg)
    (E io : List String) (ck : String) (f : String × Val) (fs : List (String × Val))
    (hpk : ck ≠ pkn) (hsk : skn ≠ some ck) (hE : ck ∉ E) :
    skipsEntry ⟨pkn, skn, inc, E, io⟩ ck (Val.map (f :: fs)) =
      (match inc with | .bool b => !b | .arr _ => false) := by
  have hpk' : (ck == pkn) = false := by simp [hpk]
  have hE' : E.contains ck = false := by simp [hE]
  cases skn with
  | none => cases inc <;> simp [skipsEntry, isNestedRecord, hpk', hE', hE]
  | some s =>
    have h2 : (ck == s) = false := by
      have h3 : ck ≠ s := fun hh => hsk (by rw [hh])
      simp [h3]
    cases inc <;> simp [skipsEntry, isNestedRecord, hpk', hE', hE, h2]

/-! # Claim theorems -/

/-- C10: two distinct sibling attribute names, `"user-id"` and
`"user:id"`, sanitize to the same string `"user_id"` under
`convertToUnderscore`; `generateUpdateExpression` maps both leaves to
the identical placeholder `#user_id`, `ExpressionAttributeNames` keeps
only the last-registered literal name (`"user:id"`), and the two
emitted assignments target the same stored attribute. -/
theorem C10_sanitization_collision :
    convertToUnderscore "user-id" = "user_id" ∧
    convertToUnderscore "user:id" = "user_id" ∧
    "user-id" ≠ "user:id" ∧
    generateUpdateExpression exCtxAll
        [("pk", .str "a"), ("user-id", .str "1"), ("user:id", .str "2")] =
      ⟨"SET #user_id = :value1, #user_id = :value2",
       [("#user_id", "user:id")],
       [(":value1", .str "1"), (":value2", .str "2")]⟩ := by
  refine ⟨rfl, rfl, by decide, ?_⟩
  rw [generateUpdateExpression_eq]
  simp [assignedEntries, skipsEntry, isNestedRecord, exCtxAll, numberVals, assignTexts,
    assignText, registerAll, registerSegs, tagify, splitDot, splitDotChars,
    convertToUnderscore, valueKeyFor, decimalStr, decimalStrAux, setKey, getKey]
  all_goals decide

/-- C5 (counterexample): a record containing only the identity fields
compiles to a `CompiledExpression` whose `UpdateExpression` is the
literal empty SET clause `"SET "` — `generateUpdateExpression` is a
total function with no zero-assignment check, so compilation does not
fail with a ConfigurationError (no such error exists in the code). -/
theorem C5_counterexample :
    generateUpdateExpression exCtxAll [("pk", .str "a"), ("sk", .str "1")] =
      ⟨"SET ", [], []⟩ := by
  rw [generateUpdateExpression_eq]
  simp [assignedEntries, skipsEntry, isNestedRecord, exCtxAll, numberVals, assignTexts,
    assignText, registerAll, registerSegs, tagify, splitDot, splitDotChars,
    convertToUnderscore, valueKeyFor, decimalStr, decimalStrAux, setKey, getKey]
  all_goals decide

/-- C5 (amended): when the traversal yields zero assignments, the
compiler does not fail; it returns a `CompiledExpression` whose update
expression is the literal string `"SET "` with empty name and value
maps. -/
theorem C5_amended_empty_set_clause (ctx : GueCtx) (record : Rec)
    (h : assignedEntries ctx record none = []) :
    generateUpdateExpression ctx record = ⟨"SET ", [], []⟩ := by
  rw [generateUpdateExpression_eq, h]
  show CompiledExpression.mk ("SET " ++ String.intercalate ", " []) [] [] = _
  have hs : "SET " ++ String.intercalate ", " ([] : List String) = "SET " := by decide
  rw [hs]

/-- C5 (witness): the amended claim applied to the identity-only
record. -/
theorem C5_amended_witness :
    generateUpdateExpression exCtxAll [("pk", .str "a"), ("sk", .str "1")] =
      ⟨"SET ", [], []⟩ :=
  C5_amended_empty_set_clause exCtxAll [("pk", .str "a"), ("sk", .str "1")]
    (by simp [assignedEntries, skipsEntry, exCtxAll])

/-- C4 (counterexample): a node whose value is `null` does produce an
assignment (the source only skips `undefined`, and `null` is not a
nested record), and the children of a node whose path is excluded are
not visited — excluding `"m"` suppresses the entire subtree, so the
leaf `m.b` produces no assignment either. Both contradict the claim. -/
theorem C4_counterexample :
    generateUpdateExpression exCtxAll [("pk", .str "a"), ("x", .null)] =
      ⟨"SET #x = :value1", [("#x", "x")], [(":value1", .null)]⟩ ∧
    generateUpdateExpression ⟨"pk", some "sk", .bool true, ["m"], []⟩
        [("pk", .str "a"), ("m", .map [("b", .num 1)])] =
      ⟨"SET ", [], []⟩ := by
  constructor
  · rw [generateUpdateExpression_eq]
    simp [assignedEntries, skipsEntry, isNestedRecord, exCtxAll, numberVals, assignTexts,
    assignText, registerAll, registerSegs, tagify, splitDot, splitDotChars,
    convertToUnderscore, valueKeyFor, decimalStr, decimalStrAux, setKey, getKey]
    all_goals decide
  · rw [generateUpdateExpression_eq]
    simp [assignedEntries, skipsEntry, isNestedRecord, exCtxAll, numberVals, assignTexts,
    assignText, registerAll, registerSegs, tagify, splitDot, splitDotChars,
    convertToUnderscore, valueKeyFor, decimalStr, decimalStrAux, setKey, getKey]
    all_goals decide

/-- C4 (amended): in `generateUpdateExpression`'s traversal, a node
whose value is `undefined` is skipped together with its (nonexistent)
children; a node whose dotted path is in the exclude list is skipped
entirely — its children are NOT visited; and a `null` value is an
ordinary leaf that does produce an assignment when the policy admits
it. -/
theorem C4_amended_skip_semantics (pkn : String) (skn : Option String)
    (inc : IncludeArg) (E io : List String) (key p : String) (v : Val)
    (rest : List (String × Val)) :
    (assignedEntries ⟨pkn, skn, inc, E, io⟩ ((key, Val.undef) :: rest) (some p) =
      assignedEntries ⟨pkn, skn, inc, E, io⟩ rest (some p)) ∧
    ((p ++ "." ++ key) ∈ E →
      assignedEntries ⟨pkn, skn, inc, E, io⟩ ((key, v) :: rest) (some p) =
        assignedEntries ⟨pkn, skn, inc, E, io⟩ rest (some p)) ∧
    ((p ++ "." ++ key) ≠ pkn → skn ≠ some (p ++ "." ++ key) →
      (p ++ "." ++ key) ∉ E →
      assignedEntries ⟨pkn, skn, .bool true, E, io⟩ ((key, Val.null) :: rest) (some p) =
        (p ++ "." ++ key, Val.null) ::
          assignedEntries ⟨pkn, skn, .bool true, E, io⟩ rest (some p)) ∧
    (∀ (ctx : GueCtx) (record : Rec),
      (generateUpdateExpression ctx record).ExpressionAttributeValues =
        numberVals 0 (assignedEntries ctx record none)) := by
  refine ⟨?_, ?_, ?_, ?_⟩
  · apply assignedEntries_skip_some
    simp [skipsEntry]
  · intro hE
    apply assignedEntries_skip_some
    simp [skipsEntry, hE]
  · intro hpk hsk hE
    apply assignedEntries_leaf_some
    · rfl
    · cases skn with
      | none => simp [skipsEntry, hpk, hE]
      | some s =>
        have hs : (p ++ "." ++ key) ≠ s := fun hh => hsk (by rw [hh])
        simp [skipsEntry, hpk, hE, hs]
  · intro ctx record
    rw [generateUpdateExpression_eq]

/-- C4 (witness): the amended claim applied at concrete arguments. -/
theorem C4_amended_witness :
    (assignedEntries ⟨"pk", some "sk", .bool true, ["m"], []⟩
        [("b", Val.undef), ("c", Val.num 1)] (some "m2") =
      assignedEntries ⟨"pk", some "sk", .bool true, ["m"], []⟩
        [("c", Val.num 1)] (some "m2")) ∧
    (("m" ++ "." ++ "b") ∈ (["m.b"] : List String) →
      assignedEntries ⟨"pk", some "sk", .bool true, ["m.b"], []⟩
          [("b", Val.map [("z", Val.num 3)])] (some "m") =
        assignedEntries ⟨"pk", some "sk", .bool true, ["m.b"], []⟩ [] (some "m")) ∧
    (("m" ++ "." ++ "x") ≠ "pk" → (some "sk" : Option String) ≠ some ("m" ++ "." ++ "x") →
      ("m" ++ "." ++ "x") ∉ (["m.b"] : List String) →
      assignedEntries ⟨"pk", some "sk", .bool true, ["m.b"], []⟩
          [("x", Val.null)] (some "m") =
        ("m" ++ "." ++ "x", Val.null) ::
          assignedEntries ⟨"pk", some "sk", .bool true, ["m.b"], []⟩ [] (some "m")) ∧
    (∀ (ctx : GueCtx) (record : Rec),
      (generateUpdateExpression ctx record).ExpressionAttributeValues =
        numberVals 0 (assignedEntries ctx record none)) := by
  have h := C4_amended_skip_semantics "pk" (some "sk") (.bool true) ["m"] [] "b" "m2"
    Val.undef [("c", Val.num 1)]
  have h2 := C4_amended_skip_semantics "pk" (some "sk") (.bool true) ["m.b"] [] "b" "m"
    (Val.map [("z", Val.num 3)]) []
  have h3 := C4_amended_skip_semantics "pk" (some "sk") (.bool true) ["m.b"] [] "x" "m"
    Val.null []
  exact ⟨h.1, h2.2.1, h3.2.2.1, h3.2.2.2⟩

/-- C2: the `ConditionalCheckFailedException` recovery of
`upsertRecordNested` — with no pre-image item, the originally supplied
record is written unconditionally via `putRecord`, so the identity then
holds exactly that record (first-write semantics); with a pre-image and
a caller-supplied condition expression, the call returns the explicit
no-op `undefined` (modelled `.ok (none, store)`) and never re-throws. -/
theorem C2_condition_check_recovery (store : Store) (id : Ident) (record : Rec)
    (hasCond : Bool) (e : DbError) (h : isCheckError e = true) :
    (e.item = none →
      upsertHandleError store id record hasCond e =
        .ok (some record, putRecordS store id record) ∧
      getRecordS (putRecordS store id record) id = some record) ∧
    (∀ old, e.item = some old → hasCond = true →
      upsertHandleError store id record hasCond e = .ok (none, store)) := by
  constructor
  · intro hnone
    refine ⟨?_, getRecordS_putRecordS_self store id record⟩
    simp [upsertHandleError, h, hnone]
  · intro old hsome hc
    simp [upsertHandleError, h, hsome, hc]

/-- C2 (witness): the recovery applied to concrete failures — an
absent-identity failure inserts the record, a precondition failure on
an existing record returns the no-op. -/
theorem C2_condition_check_witness :
    ((exCheckErrorNoItem.item = none →
      upsertHandleError [] exIdent [("pk", Val.str "a")] true exCheckErrorNoItem =
        .ok (some [("pk", Val.str "a")], putRecordS [] exIdent [("pk", Val.str "a")]) ∧
      getRecordS (putRecordS [] exIdent [("pk", Val.str "a")]) exIdent =
        some [("pk", Val.str "a")]) ∧
    (∀ old, exCheckErrorNoItem.item = some old → true = true →
      upsertHandleError [] exIdent [("pk", Val.str "a")] true exCheckErrorNoItem =
        .ok (none, []))) ∧
    ((exCheckErrorWithItem.item = none →
      upsertHandleError [] exIdent [("pk", Val.str "a")] true exCheckErrorWithItem =
        .ok (some [("pk", Val.str "a")], putRecordS [] exIdent [("pk", Val.str "a")]) ∧
      getRecordS (putRecordS [] exIdent [("pk", Val.str "a")]) exIdent =
        some [("pk", Val.str "a")]) ∧
    (∀ old, exCheckErrorWithItem.item = some old → true = true →
      upsertHandleError [] exIdent [("pk", Val.str "a")] true exCheckErrorWithItem =
        .ok (none, []))) :=
  ⟨C2_condition_check_recovery [] exIdent [("pk", Val.str "a")] true exCheckErrorNoItem
      (by decide),
   C2_condition_check_recovery [] exIdent [("pk", Val.str "a")] true exCheckErrorWithItem
      (by decide)⟩

/-- C1 (counterexample): a schema-mismatch recovery does NOT overwrite
every leaf path present in the incoming record — lodash `merge` merges
Lists element-wise.  With the current record holding `d = [1, 2]` and
the incoming record holding the leaf `d = [9]`, the merged record holds
`d = [9, 2]`, not `[9]`. -/
theorem C1_counterexample :
    isUpdateError exValidationError = true ∧
    lookupPath exRecArr ["d"] = some (.arr [.num 9]) ∧
    isNestedRecord (Val.arr [.num 9]) = false ∧
    upsertHandleError exStoreArr exIdent exRecArr false exValidationError =
      .ok (some [("pk", Val.str "a"), ("sk", Val.str "1"),
                 ("d", Val.arr [Val.num 9, Val.num 2])],
        putRecordS exStoreArr exIdent
          [("pk", Val.str "a"), ("sk", Val.str "1"),
           ("d", Val.arr [Val.num 9, Val.num 2])]) ∧
    lookupPath [("pk", Val.str "a"), ("sk", Val.str "1"),
                ("d", Val.arr [Val.num 9, Val.num 2])] ["d"] =
      some (.arr [.num 9, .num 2]) ∧
    Val.arr [.num 9, .num 2] ≠ Val.arr [.num 9] := by
  refine ⟨by decide, rfl, rfl, ?_, rfl, by simp⟩
  rw [upsertHandleError_schemaMismatch exStoreArr exIdent exRecArr false exValidationError
    (by decide)]
  have hm : mergeRecords exRecArr (getRecordS exStoreArr exIdent) [] =
      [("pk", Val.str "a"), ("sk", Val.str "1"),
       ("d", Val.arr [Val.num 9, Val.num 2])] := by
    simp [mergeRecords, omitKeys, exRecArr, exStoreArr, exIdent, getRecordS, mergeMap,
      mergeVal, mergeArrEls, getKey, setKey]
  rw [hm]

/-- C1 (amended): when an update or upsert of record R fails with a
schema-mismatch signal (a `ValidationException` whose message names an
invalid update path), `upsertRecordNested` reads the full current
record by identity; if no current record exists the write is R itself;
otherwise it writes the lodash deep merge of R into the current record
as an unconditional full replacement.  In the merge, every scalar leaf
path of R whose intermediate positions hold no List in the current
record overwrites the corresponding position (creating intermediate
Maps as needed); List values merge element-wise by index instead of
overwriting; and every position below which R binds only Maps and which
R itself does not bind retains its current value. -/
theorem C1_amended_schema_mismatch_merge (store : Store) (id : Ident) (record : Rec)
    (hasCond : Bool) (e : DbError) (h : isUpdateError e = true) :
    upsertHandleError store id record hasCond e =
      .ok (some (mergeRecords record (getRecordS store id) []),
        putRecordS store id (mergeRecords record (getRecordS store id) [])) ∧
    getRecordS (putRecordS store id (mergeRecords record (getRecordS store id) [])) id =
      some (mergeRecords record (getRecordS store id) []) ∧
    (getRecordS store id = none → (record.map Prod.fst).Nodup →
      mergeRecords record (getRecordS store id) [] = record) ∧
    (∀ o, getRecordS store id = some o →
      (∀ (p : List String) (v : Val), lookupPath record p = some v → isScalar v = true →
        wfB (.map record) = true → noArrObstruction (.map o) (.map record) p = true →
        lookupPath (mergeRecords record (getRecordS store id) []) p = some v) ∧
      (∀ p : List String, retentionSafe (.map record) p = true → wfB (.map record) = true →
        lookupPath (mergeRecords record (getRecordS store id) []) p = lookupPath o p)) := by
  refine ⟨upsertHandleError_schemaMismatch store id record hasCond e h,
    getRecordS_putRecordS_self store id _, ?_, ?_⟩
  · intro hnone hnd
    rw [hnone]
    exact mergeRecords_none_eq record hnd
  · intro o ho
    rw [ho]
    exact ⟨fun p v hl hsc hwf hobs =>
        mergeRecords_some_overwrite record o p v hl hsc hwf hobs,
      fun p hrs hwf => mergeRecords_some_retention record o p hrs hwf⟩

/-- C1 (witness): the amended claim applied to the concrete
schema-mismatch failure against the store holding the record with the
list attribute. -/
theorem C1_amended_witness :
    upsertHandleError exStoreArr exIdent exRecArr false exValidationError =
      .ok (some (mergeRecords exRecArr (getRecordS exStoreArr exIdent) []),
        putRecordS exStoreArr exIdent
          (mergeRecords exRecArr (getRecordS exStoreArr exIdent) [])) ∧
    getRecordS (putRecordS exStoreArr exIdent
        (mergeRecords exRecArr (getRecordS exStoreArr exIdent) [])) exIdent =
      some (mergeRecords exRecArr (getRecordS exStoreArr exIdent) []) ∧
    (getRecordS exStoreArr exIdent = none → (exRecArr.map Prod.fst).Nodup →
      mergeRecords exRecArr (getRecordS exStoreArr exIdent) [] = exRecArr) ∧
    (∀ o, getRecordS exStoreArr exIdent = some o →
      (∀ (p : List String) (v : Val), lookupPath exRecArr p = some v → isScalar v = true →
        wfB (.map exRecArr) = true →
        noArrObstruction (.map o) (.map exRecArr) p = true →
        lookupPath (mergeRecords exRecArr (getRecordS exStoreArr exIdent) []) p = some v) ∧
      (∀ p : List String, retentionSafe (.map exRecArr) p = true →
        wfB (.map exRecArr) = true →
        lookupPath (mergeRecords exRecArr (getRecordS exStoreArr exIdent) []) p =
          lookupPath o p)) :=
  C1_amended_schema_mismatch_merge exStoreArr exIdent exRecArr false exValidationError
    (by decide)

/-- C3 (counterexample): under `include = true` with exclude list
`["a"]`, the leaf at dotted path `a.b` is not excluded, yet it is not
assigned — excluding the Map node `a` skips its entire subtree instead
of recursing into it, so the compilation produces zero assignments. -/
theorem C3_counterexample :
    ("a.b" ∉ (["a"] : List String)) ∧
    lookupPath [("pk", Val.str "x"), ("a", Val.map [("b", Val.num 1)])] ["a", "b"] =
      some (Val.num 1) ∧
    isNestedRecord (Val.num 1) = false ∧
    generateUpdateExpression ⟨"pk", some "sk", .bool true, ["a"], []⟩
        [("pk", .str "x"), ("a", .map [("b", .num 1)])] =
      ⟨"SET ", [], []⟩ := by
  refine ⟨by decide, rfl, rfl, ?_⟩
  rw [generateUpdateExpression_eq]
  simp [assignedEntries, skipsEntry, isNestedRecord, numberVals, assignTexts,
    assignText, registerAll, registerSegs, tagify, splitDot, splitDotChars,
    convertToUnderscore, valueKeyFor, decimalStr, decimalStrAux, setKey, getKey]
  all_goals decide

/-- C3 (amended): in `generateUpdateExpression`'s traversal, for a
visited node whose own dotted path is not an identity path and not
excluded: a leaf (non-Map value, not `undefined`) is assigned exactly
when it passes the inclusion test — under an include array S, iff its
dotted path is in S; under include = true, always — and a Map node
(non-empty nested object) is recursed into regardless of include mode,
so an include list like `["data.firstname"]` selects a deep leaf
without its ancestors individually qualifying.  A node whose path IS
excluded (or an identity path) is skipped together with its entire
subtree, which is the qualification the original claim lacked. -/
theorem C3_amended_inclusion_semantics :
    (∀ (S E io : List String) (pkn p key : String) (skn : Option String) (v : Val)
       (rest : List (String × Val)),
      isNestedRecord v = false → isUndef v = false →
      (p ++ "." ++ key) ≠ pkn → skn ≠ some (p ++ "." ++ key) → (p ++ "." ++ key) ∉ E →
      assignedEntries ⟨pkn, skn, .arr S, E, io⟩ ((key, v) :: rest) (some p) =
        (if (p ++ "." ++ key) ∈ S then [((p ++ "." ++ key), v)] else []) ++
          assignedEntries ⟨pkn, skn, .arr S, E, io⟩ rest (some p)) ∧
    (∀ (E io : List String) (pkn p key : String) (skn : Option String) (v : Val)
       (rest : List (String × Val)),
      isNestedRecord v = false → isUndef v = false →
      (p ++ "." ++ key) ≠ pkn → skn ≠ some (p ++ "." ++ key) → (p ++ "." ++ key) ∉ E →
      assignedEntries ⟨pkn, skn, .bool true, E, io⟩ ((key, v) :: rest) (some p) =
        ((p ++ "." ++ key), v) ::
          assignedEntries ⟨pkn, skn, .bool true, E, io⟩ rest (some p)) ∧
    (∀ (S E io : List String) (pkn p key : String) (skn : Option String)
       (f : String × Val) (fs rest : List (String × Val)),
      (p ++ "." ++ key) ≠ pkn → skn ≠ some (p ++ "." ++ key) → (p ++ "." ++ key) ∉ E →
      assignedEntries ⟨pkn, skn, .arr S, E, io⟩
          ((key, Val.map (f :: fs)) :: rest) (some p) =
        assignedEntries ⟨pkn, skn, .arr S, E, io⟩ (f :: fs) (some (p ++ "." ++ key)) ++
          assignedEntries ⟨pkn, skn, .arr S, E, io⟩ rest (some p)) ∧
    (∀ (E io : List String) (pkn p key : String) (skn : Option String)
       (f : String × Val) (fs rest : List (String × Val)),
      (p ++ "." ++ key) ≠ pkn → skn ≠ some (p ++ "." ++ key) → (p ++ "." ++ key) ∉ E →
      assignedEntries ⟨pkn, skn, .bool true, E, io⟩
          ((key, Val.map (f :: fs)) :: rest) (some p) =
        assignedEntries ⟨pkn, skn, .bool true, E, io⟩ (f :: fs)
            (some (p ++ "." ++ key)) ++
          assignedEntries ⟨pkn, skn, .bool true, E, io⟩ rest (some p)) ∧
    (generateUpdateExpression ⟨"pk", some "sk", .arr ["data.firstname"], [], []⟩
        [("pk", .str "a"),
         ("data", .map [("firstname", .str "F"), ("lastname", .str "L")])] =
      ⟨"SET #data.#firstname = :value1",
       [("#data", "data"), ("#firstname", "firstname")],
       [(":value1", .str "F")]⟩) ∧
    (∀ (ctx : GueCtx) (record : Rec),
      (generateUpdateExpression ctx record).UpdateExpression =
        "SET " ++ String.intercalate ", "
          (assignTexts ctx 0 (assignedEntries ctx record none))) := by
  refine ⟨?_, ?_, ?_, ?_, ?_, ?_⟩
  · intro S E io pkn p key skn v rest hnm hu hpk hsk hE
    by_cases hS : (p ++ "." ++ key) ∈ S
    · rw [if_pos hS, assignedEntries_leaf_some _ key p v rest hnm
        (by rw [skipsEntry_eval_leaf pkn skn (.arr S) E io (p ++ "." ++ key) v
              hpk hsk hE hu hnm]
            simp [hS])]
      simp
    · rw [if_neg hS, assignedEntries_skip_some _ key p v rest
        (by rw [skipsEntry_eval_leaf pkn skn (.arr S) E io (p ++ "." ++ key) v
              hpk hsk hE hu hnm]
            simp [hS])]
      simp
  · intro E io pkn p key skn v rest hnm hu hpk hsk hE
    exact assignedEntries_leaf_some _ key p v rest hnm
      (by rw [skipsEntry_eval_leaf pkn skn (.bool true) E io (p ++ "." ++ key) v
            hpk hsk hE hu hnm]
          rfl)
  · intro S E io pkn p key skn f fs rest hpk hsk hE
    exact assignedEntries_map_some _ key p f fs rest
      (by rw [skipsEntry_eval_map pkn skn (.arr S) E io (p ++ "." ++ key) f fs hpk hsk hE])
  · intro E io pkn p key skn f fs rest hpk hsk hE
    exact assignedEntries_map_some _ key p f fs rest
      (by rw [skipsEntry_eval_map pkn skn (.bool true) E io (p ++ "." ++ key) f fs
            hpk hsk hE]
          rfl)
  · rw [generateUpdateExpression_eq]
    simp [assignedEntries, skipsEntry, isNestedRecord, numberVals, assignTexts,
      assignText, registerAll, registerSegs, tagify, splitDot, splitDotChars,
      convertToUnderscore, valueKeyFor, decimalStr, decimalStrAux, setKey, getKey]
    all_goals decide
  · intro ctx record
    rw [generateUpdateExpression_eq]

/-- C3 (witness): the amended per-node inclusion semantics applied at
the deep leaf `data.firstname` under the include list
`["data.firstname"]`. -/
theorem C3_amended_witness :
    assignedEntries ⟨"pk", some "sk", .arr ["data.firstname"], [], []⟩
        [("firstname", Val.str "F")] (some "data") =
      (if ("data" ++ "." ++ "firstname") ∈ (["data.firstname"] : List String) then
        [(("data" ++ "." ++ "firstname"), Val.str "F")] else []) ++
        assignedEntries ⟨"pk", some "sk", .arr ["data.firstname"], [], []⟩
          [] (some "data") :=
  C3_amended_inclusion_semantics.1 ["data.firstname"] [] [] "pk" "data" "firstname"
    (some "sk") (Val.str "F") [] rfl rfl (by decide) (by decide) (by decide)

/-- C6: a leaf whose dotted path is in the `insertOnly` list compiles to
the wrapped assignment `placeholder = if_not_exists(placeholder, :valueN)`
instead of an unconditional assignment; in particular, after putting
`{data:{created_at:"2023-10-01"}}`, an `upsertRecordNested` with
`insertOnly ["data.created_at"]` and new value `"2023-10-02"` compiles
to exactly that wrapped expression, and the storage engine's
`if_not_exists` semantics (modelled from the spec, the engine being an
external collaborator) leaves the stored value `"2023-10-01"`
unchanged. -/
theorem C6_insert_only_if_not_exists (ctx : GueCtx) (ck : String) (v : Val)
    (st : GueState) (h : ctx.insertOnly.contains ck = true) :
    (leafStep ctx ck v st).exprs = st.exprs ++
      [tagify ck ++ " = " ++ ("if_not_exists(" ++ tagify ck ++ ", " ++
        (":value" ++ decimalStr (st.values.length + 1)) ++ ")")] ∧
    generateUpdateExpression ⟨"pk", some "sk", .bool true, [], ["data.created_at"]⟩
        [("pk", .str "a"), ("sk", .str "1"),
         ("data", .map [("created_at", .str "2023-10-02")])] =
      ⟨"SET #data.#created_at = if_not_exists(#data.#created_at, :value1)",
       [("#data", "data"), ("#created_at", "created_at")],
       [(":value1", .str "2023-10-02")]⟩ ∧
    applyIfNotExistsSet
        [("pk", .str "a"), ("sk", .str "1"),
         ("data", .map [("created_at", .str "2023-10-01")])]
        ["data", "created_at"] (.str "2023-10-02") =
      [("pk", .str "a"), ("sk", .str "1"),
       ("data", .map [("created_at", .str "2023-10-01")])] ∧
    lookupPath [("pk", .str "a"), ("sk", .str "1"),
        ("data", .map [("created_at", .str "2023-10-01")])]
        ["data", "created_at"] = some (.str "2023-10-01") := by
  have hm : ck ∈ ctx.insertOnly := by simpa using h
  refine ⟨by simp [leafStep, hm], ?_, rfl, rfl⟩
  rw [generateUpdateExpression_eq]
  simp [assignedEntries, skipsEntry, isNestedRecord, numberVals, assignTexts,
    assignText, registerAll, registerSegs, tagify, splitDot, splitDotChars,
    convertToUnderscore, valueKeyFor, decimalStr, decimalStrAux, setKey, getKey]
  all_goals decide

/-- C6 (witness): the insert-only wrapping applied at the concrete path
`data.created_at`. -/
theorem C6_insert_only_witness :
    (leafStep ⟨"pk", some "sk", .bool true, [], ["data.created_at"]⟩ "data.created_at"
        (Val.str "2023-10-02") ⟨[], [], []⟩).exprs = [] ++
      [tagify "data.created_at" ++ " = " ++ ("if_not_exists(" ++ tagify "data.created_at" ++
        ", " ++ (":value" ++ decimalStr (([] : List (String × Val)).length + 1)) ++ ")")] ∧
    generateUpdateExpression ⟨"pk", some "sk", .bool true, [], ["data.created_at"]⟩
        [("pk", .str "a"), ("sk", .str "1"),
         ("data", .map [("created_at", .str "2023-10-02")])] =
      ⟨"SET #data.#created_at = if_not_exists(#data.#created_at, :value1)",
       [("#data", "data"), ("#created_at", "created_at")],
       [(":value1", .str "2023-10-02")]⟩ ∧
    applyIfNotExistsSet
        [("pk", .str "a"), ("sk", .str "1"),
         ("data", .map [("created_at", .str "2023-10-01")])]
        ["data", "created_at"] (.str "2023-10-02") =
      [("pk", .str "a"), ("sk", .str "1"),
       ("data", .map [("created_at", .str "2023-10-01")])] ∧
    lookupPath [("pk", .str "a"), ("sk", .str "1"),
        ("data", .map [("created_at", .str "2023-10-01")])]
        ["data", "created_at"] = some (.str "2023-10-01") :=
  C6_insert_only_if_not_exists ⟨"pk", some "sk", .bool true, [], ["data.created_at"]⟩
    "data.created_at" (Val.str "2023-10-02") ⟨[], [], []⟩ (by decide)

/-- C7: `parseExpression("#a.#b = :v1", {":v1":{"S":"x"}})` returns the
dotted attribute chain decomposed into separately registered segments
`{"#a":"a","#b":"b"}` and exactly the referenced subset
`{":v1":{"S":"x"}}` of the caller's value mapping; and whenever some
match of the three recognizer regexes references a value token absent
from the caller-supplied mapping, `parseExpression` fails with an error
whose message names the offending token and includes the original
expression text. -/
theorem C7_parse_expression :
    parseExpression "#a.#b = :v1" (some [(":v1", .str "x")]) =
      .ok ⟨[("#a", "a"), ("#b", "b")], [(":v1", .str "x")]⟩ ∧
    (∀ (expr : String) (provided : Option (List (String × Val))),
      (∃ m ∈ allMatches expr, matchMissing provided m = true) →
      ∃ t, (provided.bind (fun vs => getKey vs (":" ++ t))) = none ∧
        parseExpression expr provided = .error ⟨"Error", missingMsg t expr⟩ ∧
        containsSubstr (missingMsg t expr) (":" ++ t) ∧
        containsSubstr (missingMsg t expr) expr) := by
  refine ⟨rfl, ?_⟩
  intro expr provided hex
  obtain ⟨t, ht, he⟩ := parseExpression_missing expr provided hex
  exact ⟨t, ht, he, missingMsg_contains_token t expr, missingMsg_contains_expr t expr⟩

/-- C7 (witness): referencing the undeclared token `:v2` fails with the
missing-value error naming `:v2` and quoting the expression. -/
theorem C7_parse_expression_witness :
    (∃ m ∈ allMatches "#a = :v2",
      matchMissing (some [(":v1", Val.str "x")]) m = true) ∧
    (∃ t, ((some [(":v1", Val.str "x")] : Option (List (String × Val))).bind
        (fun vs => getKey vs (":" ++ t))) = none ∧
      parseExpression "#a = :v2" (some [(":v1", Val.str "x")]) =
        .error ⟨"Error", missingMsg t "#a = :v2"⟩ ∧
      containsSubstr (missingMsg t "#a = :v2") (":" ++ t) ∧
      containsSubstr (missingMsg t "#a = :v2") "#a = :v2") :=
  ⟨by decide,
   C7_parse_expression.2 "#a = :v2" (some [(":v1", Val.str "x")]) (by decide)⟩

/-- C8: in every compilation, the update expression is the comma-joined
list of the per-leaf assignment texts; the value-placeholder keys are
exactly `:value1 .. :valueN` in order — drawn from one counter shared
across the whole compilation, hence globally unique and monotonically
numbered; every sanitized segment of every assigned path has an entry
in `ExpressionAttributeNames`; and the i-th assignment references
`:value(i+1)`, which is the i-th registered value key. -/
theorem C8_placeholder_invariants (ctx : GueCtx) (record : Rec) :
    (generateUpdateExpression ctx record).UpdateExpression =
      "SET " ++ String.intercalate ", "
        (assignTexts ctx 0 (assignedEntries ctx record none)) ∧
    (generateUpdateExpression ctx record).ExpressionAttributeValues.map Prod.fst =
      (List.range (assignedEntries ctx record none).length).map
        (fun i => valueKeyFor (i + 1)) ∧
    ((generateUpdateExpression ctx record).ExpressionAttributeValues.map Prod.fst).Nodup ∧
    (∀ e ∈ assignedEntries ctx record none, ∀ seg ∈ splitDot e.1,
      (getKey (generateUpdateExpression ctx record).ExpressionAttributeNames
        ("#" ++ convertToUnderscore seg)).isSome) ∧
    (∀ (i : Nat) (h1 : i < (assignedEntries ctx record none).length)
      (h2 : i < (assignTexts ctx 0 (assignedEntries ctx record none)).length),
      (assignTexts ctx 0 (assignedEntries ctx record none)).get ⟨i, h2⟩ =
        assignText ctx ((assignedEntries ctx record none).get ⟨i, h1⟩).1 (i + 1)) := by
  refine ⟨?_, gue_values_keys ctx record, ?_, ?_, ?_⟩
  · rw [generateUpdateExpression_eq]
  · rw [gue_values_keys ctx record]
    refine List.Nodup.map ?_ (List.nodup_range _)
    intro a b hab
    have := valueKeyFor_injective hab
    omega
  · intro e he seg hseg
    rw [generateUpdateExpression_eq]
    exact registerAll_covers _ _ e he seg hseg
  · intro i h1 h2
    rw [assignTexts_get ctx _ 0 i h1 h2]
    exact congrArg _ (by omega)

/-- C8 (witness): the invariants instantiated on a concrete nested
record. -/
theorem C8_placeholder_invariants_witness :
    (generateUpdateExpression exCtxAll
        [("pk", Val.str "a"), ("data", Val.map [("x", Val.num 1)])]).UpdateExpression =
      "SET " ++ String.intercalate ", "
        (assignTexts exCtxAll 0 (assignedEntries exCtxAll
          [("pk", Val.str "a"), ("data", Val.map [("x", Val.num 1)])] none)) ∧
    (generateUpdateExpression exCtxAll
        [("pk", Val.str "a"), ("data", Val.map [("x", Val.num 1)])]).ExpressionAttributeValues.map
        Prod.fst =
      (List.range (assignedEntries exCtxAll
        [("pk", Val.str "a"), ("data", Val.map [("x", Val.num 1)])] none).length).map
        (fun i => valueKeyFor (i + 1)) ∧
    ((generateUpdateExpression exCtxAll
        [("pk", Val.str "a"), ("data", Val.map [("x", Val.num 1)])]).ExpressionAttributeValues.map
        Prod.fst).Nodup ∧
    (∀ e ∈ assignedEntries exCtxAll
        [("pk", Val.str "a"), ("data", Val.map [("x", Val.num 1)])] none,
      ∀ seg ∈ splitDot e.1,
      (getKey (generateUpdateExpression exCtxAll
          [("pk", Val.str "a"), ("data", Val.map [("x", Val.num 1)])]).ExpressionAttributeNames
        ("#" ++ convertToUnderscore seg)).isSome) ∧
    (∀ (i : Nat) (h1 : i < (assignedEntries exCtxAll
        [("pk", Val.str "a"), ("data", Val.map [("x", Val.num 1)])] none).length)
      (h2 : i < (assignTexts exCtxAll 0 (assignedEntries exCtxAll
        [("pk", Val.str "a"), ("data", Val.map [("x", Val.num 1)])] none)).length),
      (assignTexts exCtxAll 0 (assignedEntries exCtxAll
        [("pk", Val.str "a"), ("data", Val.map [("x", Val.num 1)])] none)).get ⟨i, h2⟩ =
        assignText exCtxAll ((assignedEntries exCtxAll
          [("pk", Val.str "a"), ("data", Val.map [("x", Val.num 1)])] none).get ⟨i, h1⟩).1
          (i + 1)) :=
  C8_placeholder_invariants exCtxAll
    [("pk", Val.str "a"), ("data", Val.map [("x", Val.num 1)])]

/-- C9: `batchWriteRecord` and `batchDeleteRecord` partition their input
into `ceil(n/25)` groups of at most 25 whose concatenation equals the
input (237 records produce 10 groups) and aggregate the per-group
gateway results with `Promise.all` — one failing group aborts the
aggregate, and when every group succeeds the aggregate collects every
group's result; `batchGetRecord` partitions into groups of at most 100
and returns exactly the items of all groups (the concatenation of the
per-group responses, independent of completion order), one per present
identity. -/
theorem C9_batch_chunking :
    (∀ records : List Rec, (chunked 25 records).flatten = records) ∧
    (∀ (records : List Rec) (c : List Rec), c ∈ chunked 25 records → c.length ≤ 25) ∧
    (∀ records : List Rec, (chunked 25 records).length = (records.length + 24) / 25) ∧
    (∀ records : List Rec, records.length = 237 → (chunked 25 records).length = 10) ∧
    (∀ (records : List Rec) (sendChunk : List Rec → Except DbError Unit),
      batchWriteRecord records sendChunk =
        promiseAll ((chunked 25 records).map sendChunk) ∧
      batchDeleteRecord records sendChunk =
        promiseAll ((chunked 25 records).map sendChunk)) ∧
    (∀ (records : List Rec) (sendChunk : List Rec → Except DbError Unit),
      (∃ c ∈ chunked 25 records, ∃ e, sendChunk c = .error e) →
      ∃ e, batchWriteRecord records sendChunk = .error e) ∧
    (∀ (records : List Rec) (sendChunk : List Rec → Except DbError Unit),
      (∀ c ∈ chunked 25 records, ∃ a, sendChunk c = .ok a) →
      ∃ rs, batchWriteRecord records sendChunk = .ok rs ∧
        rs.length = (chunked 25 records).length) ∧
    (∀ ids : List Ident, (chunked 100 ids).flatten = ids ∧
      ∀ c ∈ chunked 100 ids, c.length ≤ 100) ∧
    (∀ (store : Store) (ids : List Ident), ids ≠ [] →
      batchGetRecord store ids = ids.filterMap (getRecordS store)) ∧
    (∀ (store : Store) (ids : List Ident),
      (∀ id ∈ ids, (getRecordS store id).isSome) →
      (batchGetRecord store ids).length = ids.length) := by
  refine ⟨chunked_flatten 25 (by decide), chunked_sizes 25, ?_, ?_, ?_, ?_, ?_, ?_, ?_, ?_⟩
  · intro records
    have := chunked_count 25 (by decide) records
    simpa using this
  · intro records hlen
    have := chunked_count 25 (by decide) records
    rw [hlen] at this
    simpa using this
  · intro records sendChunk
    exact ⟨rfl, rfl⟩
  · intro records sendChunk ⟨c, hc, e, he⟩
    have hmem : Except.error e ∈ (chunked 25 records).map sendChunk := by
      rw [← he]
      exact List.mem_map_of_mem sendChunk hc
    exact promiseAll_error_of_mem _ e hmem
  · intro records sendChunk hall
    obtain ⟨rs, hrs, hlen⟩ := promiseAll_ok_of_all_ok ((chunked 25 records).map sendChunk)
      (by
        intro r hr
        obtain ⟨c, hc, rfl⟩ := List.mem_map.mp hr
        exact hall c hc)
    exact ⟨rs, hrs, by rw [hlen, List.length_map]⟩
  · intro ids
    exact ⟨chunked_flatten 100 (by decide) ids, chunked_sizes 100 ids⟩
  · intro store ids hne
    cases ids with
    | nil => exact absurd rfl hne
    | cons i t =>
      show (((chunked 100 (i :: t)).map
        (fun c => c.filterMap (getRecordS store))).flatten) = _
      rw [flatten_map_filterMap, chunked_flatten 100 (by decide)]
  · exact batchGetRecord_all_present

/-- C9 (witness): 237 records partition into exactly 10 groups. -/
theorem C9_batch_chunking_witness :
    (chunked 25 (List.replicate 237 ([] : Rec))).length = 10 :=
  C9_batch_chunking.2.2.2.1 (List.replicate 237 []) (by rw [List.length_replicate])

end Tynamo
